import Mathlib

/-!
Verification of the pipdeptree dependency-graph engine.

The development shallowly embeds the Python sources:
  - `src/src/package.py`, `src/src/dist_package.py`, `src/src/req_package.py`
    (the package entity model),
  - `src/src/package_dag.py` (`PackageDAG`, `ReversedPackageDAG`, `sorted_tree`),
  - `src/pipdeptree.py` (`render_text`, `render_json_tree`, `conflicting_deps`,
    `cyclic_deps`).

Python objects wrapping `pkg_resources` records become Lean structures holding
the finitely many fields the program reads (`key`, `project_name`, `version`,
requirement specifiers).  Python dicts keyed by node objects become association
lists in insertion order; dict updates are modelled by in-place replacement of
the first matching entry.  The version-introspection fallback
(`guess_version`, which imports a module from the host environment) is modelled
as an arbitrary function `gv : String → String` supplied as a parameter, and
the version-specifier semantics of the external `pkg_resources` library is
modelled by a numeric dotted-version comparison.  Fallible code
(`ReversedPackageDAG.reverse`, which dereferences a possibly-`None` `dist`,
and `PackageDAG.filter`, which contains an `assert`) returns `Option`.
-/

/-- Core record of an installed distribution as read by the program:
`key`, `project_name` and `version` (the fields of the wrapped object that
`package.py` and `dist_package.py` access). -/
structure BasePkg where
  key : String
  project_name : String
  version : String
deriving DecidableEq, Repr

/-- `ReqPackage` from `req_package.py`: a wrapper around a requirement.
`specs` is the list of `(operator, version)` pairs of the requirement
(`self._obj.specs`), `dist` the resolved installed package, or `none` when the
requirement's target is not installed. -/
structure ReqPackage where
  key : String
  project_name : String
  specs : List (String × String)
  dist : Option BasePkg
deriving DecidableEq, Repr

/-- `DistPackage` from `dist_package.py`: a wrapper around an installed
distribution, with the optional back-link `req` used when displaying a
reversed tree. -/
structure DistPackage where
  base : BasePkg
  req : Option ReqPackage
deriving DecidableEq, Repr

def DistPackage.key (d : DistPackage) : String := d.base.key

def DistPackage.project_name (d : DistPackage) : String := d.base.project_name

def DistPackage.version (d : DistPackage) : String := d.base.version

/-- `ReqPackage.UNKNOWN_VERSION`. -/
def UNKNOWN_VERSION : String := "?"

/-- Three-way code-point comparison of character lists: both Python and the
runtime order strings lexicographically by code point. -/
def cmpChars : List Char → List Char → Ordering
  | [], [] => .eq
  | [], _ :: _ => .lt
  | _ :: _, [] => .gt
  | a :: as, b :: bs =>
    if a.toNat < b.toNat then .lt
    else if b.toNat < a.toNat then .gt
    else cmpChars as bs

/-- `a < b` on strings. -/
def strLt (a b : String) : Bool := cmpChars a.data b.data == .lt

/-- `a <= b` on strings. -/
def strLe (a b : String) : Bool := !(strLt b a)

/-- `str.lower()`, as the character map. -/
def lowerStr (s : String) : String := ⟨s.data.map Char.toLower⟩

theorem cmpChars_self : ∀ l : List Char, cmpChars l l = .eq := by
  intro l
  induction l with
  | nil => rfl
  | cons x xs ih => simp [cmpChars, ih]

theorem cmpChars_eq : ∀ {a b : List Char}, cmpChars a b = .eq → a = b := by
  intro a
  induction a with
  | nil =>
    intro b h
    cases b with
    | nil => rfl
    | cons y ys => simp [cmpChars] at h
  | cons x xs ih =>
    intro b h
    cases b with
    | nil => simp [cmpChars] at h
    | cons y ys =>
      rw [cmpChars] at h
      by_cases hxy : x.toNat < y.toNat
      · rw [if_pos hxy] at h
        exact absurd h (by simp)
      · rw [if_neg hxy] at h
        by_cases hyx : y.toNat < x.toNat
        · rw [if_pos hyx] at h
          exact absurd h (by simp)
        · rw [if_neg hyx] at h
          have hn : x.toNat = y.toNat := by omega
          have hx : x = y := Char.ext (UInt32.ext hn)
          rw [hx, ih h]

theorem cmpChars_lt_iff_gt : ∀ {a b : List Char},
    cmpChars a b = .lt ↔ cmpChars b a = .gt := by
  intro a
  induction a with
  | nil =>
    intro b
    cases b with
    | nil => simp [cmpChars]
    | cons y ys => simp [cmpChars]
  | cons x xs ih =>
    intro b
    cases b with
    | nil => simp [cmpChars]
    | cons y ys =>
      rw [cmpChars, cmpChars]
      by_cases hxy : x.toNat < y.toNat
      · have hyx : ¬ y.toNat < x.toNat := by omega
        rw [if_pos hxy, if_neg hyx, if_pos hxy]
        simp
      · rw [if_neg hxy]
        by_cases hyx : y.toNat < x.toNat
        · rw [if_pos hyx, if_pos hyx]
          simp
        · rw [if_neg hyx, if_neg hxy, if_neg hyx]
          exact ih

theorem cmpChars_lt_trans : ∀ (a b c : List Char),
    cmpChars a b = .lt → cmpChars b c = .lt → cmpChars a c = .lt := by
  intro a
  induction a with
  | nil =>
    intro b c h1 h2
    cases c with
    | nil =>
      cases b with
      | nil => simp [cmpChars] at h1
      | cons y ys => simp [cmpChars] at h2
    | cons z zs => simp [cmpChars]
  | cons x xs ih =>
    intro b c h1 h2
    cases b with
    | nil => simp [cmpChars] at h1
    | cons y ys =>
      cases c with
      | nil => simp [cmpChars] at h2
      | cons z zs =>
        rw [cmpChars] at h1 h2 ⊢
        by_cases hxy : x.toNat < y.toNat
        · by_cases hyz : y.toNat < z.toNat
          · rw [if_pos (by omega : x.toNat < z.toNat)]
          · rw [if_neg hyz] at h2
            by_cases hzy : z.toNat < y.toNat
            · rw [if_pos hzy] at h2
              exact absurd h2 (by simp)
            · rw [if_pos (by omega : x.toNat < z.toNat)]
        · rw [if_neg hxy] at h1
          by_cases hyx : y.toNat < x.toNat
          · rw [if_pos hyx] at h1
            exact absurd h1 (by simp)
          · rw [if_neg hyx] at h1
            by_cases hyz : y.toNat < z.toNat
            · rw [if_pos (by omega : x.toNat < z.toNat)]
            · rw [if_neg hyz] at h2
              by_cases hzy : z.toNat < y.toNat
              · rw [if_pos hzy] at h2
                exact absurd h2 (by simp)
              · rw [if_neg hzy] at h2
                rw [if_neg (by omega : ¬ x.toNat < z.toNat),
                  if_neg (by omega : ¬ z.toNat < x.toNat)]
                exact ih ys zs h1 h2

theorem strLe_total (a b : String) : strLe a b = true ∨ strLe b a = true := by
  unfold strLe strLt
  cases h : cmpChars a.data b.data with
  | eq =>
    left
    have hd := cmpChars_eq h
    rw [hd, cmpChars_self]
    decide
  | lt =>
    left
    have hg : cmpChars b.data a.data = .gt := cmpChars_lt_iff_gt.mp h
    rw [hg]
    decide
  | gt =>
    right
    decide

theorem strLe_trans {a b c : String} (h1 : strLe a b = true)
    (h2 : strLe b c = true) : strLe a c = true := by
  unfold strLe strLt at h1 h2 ⊢
  cases hba : cmpChars b.data a.data with
  | lt =>
    rw [hba] at h1
    exact absurd h1 (by decide)
  | eq =>
    have hd := cmpChars_eq hba
    rw [← hd]
    exact h2
  | gt =>
    cases hcb : cmpChars c.data b.data with
    | lt =>
      rw [hcb] at h2
      exact absurd h2 (by decide)
    | eq =>
      have hd := cmpChars_eq hcb
      rw [hd]
      exact h1
    | gt =>
      have hab : cmpChars a.data b.data = .lt := cmpChars_lt_iff_gt.mpr hba
      have hbc : cmpChars b.data c.data = .lt := cmpChars_lt_iff_gt.mpr hcb
      have hac := cmpChars_lt_trans a.data b.data c.data hab hbc
      have hca : cmpChars c.data a.data = .gt := cmpChars_lt_iff_gt.mp hac
      rw [hca]
      decide

/-- Dotted version string, read as a list of numeric parts split on `.`;
a non-numeric or empty part is read as 0.  Models how the external library
parses `"1.0"`. -/
def natOfChars : List Char → Option Nat
  | [] => none
  | l => l.foldl (fun acc c =>
      acc.bind (fun n =>
        if c.toNat ≥ 48 ∧ c.toNat ≤ 57 then some (n * 10 + (c.toNat - 48))
        else none)) (some 0)

def splitDots : List Char → List (List Char)
  | [] => [[]]
  | c :: cs =>
    if c = '.' then [] :: splitDots cs
    else
      match splitDots cs with
      | [] => [[c]]
      | h :: t => (c :: h) :: t

def parseVer (s : String) : List Nat :=
  (splitDots s.data).map (fun p => (natOfChars p).getD 0)

/-- Lexicographic comparison of version parts, missing parts count as 0
(so `1.0 = 1.0.0`).  Models the external version-comparison semantics. -/
def cmpParts : List Nat → List Nat → Ordering
  | [], bs => if bs.any (fun x => 0 < x) then .lt else .eq
  | a :: as, [] => if 0 < a then .gt else cmpParts as []
  | a :: as, b :: bs =>
    if a < b then .lt else if b < a then .gt else cmpParts as bs

/-- Does installed version `iv` satisfy a single `(op, rv)` specifier?
Models the comparison semantics of a `pkg_resources` specifier; an operator
outside the modelled set is treated as satisfied. -/
def opSatisfies (op : String) (iv rv : String) : Bool :=
  let c := cmpParts (parseVer iv) (parseVer rv)
  if op = ">=" then c ≠ .lt
  else if op = "<=" then c ≠ .gt
  else if op = ">" then c = .gt
  else if op = "<" then c = .lt
  else if op = "==" then c = .eq
  else if op = "!=" then c ≠ .eq
  else true

/-- Membership of an installed version in a requirement's specifier set:
`installed_version in Requirement.parse(name + version_spec)` holds iff every
specifier is satisfied; with no specifiers every version is a member. -/
def versionSatisfies (iv : String) (specs : List (String × String)) : Bool :=
  specs.all (fun sp => opSatisfies sp.1 iv sp.2)

/-- Descending order on `(op, version)` string pairs: `sorted(specs,
reverse=True)` in `ReqPackage.version_spec` sorts the pairs in decreasing
lexicographic tuple order (which makes `>` sort before `<`). -/
def specGe (a b : String × String) : Prop :=
  (strLt b.1 a.1 || (b.1 == a.1 && strLe b.2 a.2)) = true

instance : DecidableRel specGe := fun a b =>
  inferInstanceAs (Decidable (_ = true))

/-- `ReqPackage.version_spec`: the specifiers sorted in reverse order, each
rendered as `op ++ version`, joined with commas; `none` when there are no
specifiers. -/
def ReqPackage.version_spec (r : ReqPackage) : Option String :=
  if r.specs.isEmpty then none
  else some (String.intercalate ","
    ((List.insertionSort specGe r.specs).map (fun sp => sp.1 ++ sp.2)))

/-- `ReqPackage.installed_version`: the resolved target's version when `dist`
is present, otherwise `guess_version(self.key, UNKNOWN_VERSION)`.
`guess_version` introspects the host environment, so it is passed in as an
arbitrary function `gv`. -/
def ReqPackage.installed_version (gv : String → String) (r : ReqPackage) : String :=
  match r.dist with
  | none => gv r.key
  | some d => d.version

/-- `ReqPackage.is_missing`. -/
def ReqPackage.is_missing (gv : String → String) (r : ReqPackage) : Bool :=
  r.installed_version gv == UNKNOWN_VERSION

/-- `ReqPackage.is_conflicting`: an unknown installed version always
conflicts; otherwise the installed version is tested against the requirement
rebuilt from `project_name` and `version_spec`. -/
def ReqPackage.is_conflicting (gv : String → String) (r : ReqPackage) : Bool :=
  if r.installed_version gv == UNKNOWN_VERSION then true
  else !(versionSatisfies (r.installed_version gv) r.specs)

/-- `Package.frozen_repr`: models the `pip` freeze representation of an
installed distribution as `name==version`. -/
def frozen_repr (b : BasePkg) : String := b.project_name ++ "==" ++ b.version

/-- `ReqPackage.render_as_root`. -/
def ReqPackage.render_as_root (gv : String → String) (frozen : Bool) (r : ReqPackage) : String :=
  if !frozen then r.project_name ++ "==" ++ r.installed_version gv
  else
    match r.dist with
    | some d => frozen_repr d
    | none => r.project_name

/-- `ReqPackage.render_as_branch`: the `name [required: spec, installed:
version]` form used for non-root lines of the forward text tree. -/
def ReqPackage.render_as_branch (gv : String → String) (frozen : Bool) (r : ReqPackage) : String :=
  if !frozen then
    r.project_name ++ " [required: " ++ (r.version_spec).getD "Any"
      ++ ", installed: " ++ r.installed_version gv ++ "]"
  else r.render_as_root gv frozen

/-- `DistPackage.render_as_root`. -/
def DistPackage.render_as_root (frozen : Bool) (d : DistPackage) : String :=
  if !frozen then d.project_name ++ "==" ++ d.version
  else frozen_repr d.base

/-- `DistPackage.as_parent_of`: associate this installed package with the
requirement that pulled it in.  When both `req` arguments are `None` the same
object is returned, which is the same value as rebuilding it. -/
def DistPackage.as_parent_of (d : DistPackage) (r : Option ReqPackage) : DistPackage :=
  if r = none ∧ d.req = none then d else ⟨d.base, r⟩

/-- `DistPackage.as_requirement`: the `ReqPackage` representation of an
installed package, carrying the specifier `== version` and resolving to the
package itself. -/
def DistPackage.as_requirement (d : DistPackage) : ReqPackage :=
  ⟨d.key, d.project_name, [("==", d.version)], some d.base⟩

/-- `PackageDAG` from `package_dag.py`: the underlying dict, as an ordered
association list from installed package to its requirement edges. -/
structure PackageDAG where
  m : List (DistPackage × List ReqPackage)
deriving DecidableEq, Repr

/-- `ReversedPackageDAG`: keys are requirement edges, values the installed
packages depending on them. -/
structure ReversedPackageDAG where
  m : List (ReqPackage × List DistPackage)
deriving DecidableEq, Repr

def PackageDAG.roots (g : PackageDAG) : List DistPackage := g.m.map Prod.fst

def PackageDAG.rootKeys (g : PackageDAG) : List String :=
  g.m.map (fun e => e.1.key)

def ReversedPackageDAG.rootKeys (g : ReversedPackageDAG) : List String :=
  g.m.map (fun e => e.1.key)

/-- `PackageDAG.get_node_as_parent`: lookup in `self._index`, which is the
dict `{p.key: p}` built over the keys in order, so a later package with the
same key wins. -/
def PackageDAG.get_node_as_parent (g : PackageDAG) (node_key : String) : Option DistPackage :=
  (g.m.map Prod.fst).reverse.find? (fun p => p.key == node_key)

/-- Lookup `self._obj[node]`: dict lookup by the node object.  A Python dict
key that was assigned twice keeps the latest value, hence the reversed scan. -/
def PackageDAG.lookup (g : PackageDAG) (n : DistPackage) : Option (List ReqPackage) :=
  (g.m.reverse.find? (fun e => decide (e.1 = n))).map Prod.snd

/-- `PackageDAG.get_children`: the child list of the node registered for the
key, or `[]` when the key has no node. -/
def PackageDAG.get_children (g : PackageDAG) (node_key : String) : List ReqPackage :=
  match g.get_node_as_parent node_key with
  | none => []
  | some n => (g.lookup n).getD []

/-- A raw requirement specifier of an installed-package record, as supplied
by the external inventory. -/
structure ReqSpec where
  key : String
  project_name : String
  specs : List (String × String)
deriving DecidableEq, Repr

/-- A raw installed-package record, as supplied by the external inventory
(`get_installed_distributions`). -/
structure PkgRecord where
  key : String
  project_name : String
  version : String
  requires : List ReqSpec
deriving DecidableEq, Repr

def PkgRecord.toDist (p : PkgRecord) : DistPackage :=
  ⟨⟨p.key, p.project_name, p.version⟩, none⟩

/-- `PackageDAG.from_pkgs`: wrap every record, build the key index (later
records win), then resolve every declared requirement through the index. -/
def PackageDAG.from_pkgs (pkgs : List PkgRecord) : PackageDAG :=
  let ds := pkgs.map PkgRecord.toDist
  ⟨pkgs.map (fun p =>
    (p.toDist,
     p.requires.map (fun r =>
       ⟨r.key, r.project_name, r.specs,
        (ds.reverse.find? (fun d => d.key == r.key)).map DistPackage.base⟩)))⟩

/-- Append `b` to the value list of the first entry whose key (under `ka`)
matches `ka v`; if no entry matches, a new entry `(v, [b])` is appended at the
end.  This is the `defaultdict(list)` update pattern of both `reverse`
methods, where the representative node for a key is the first object seen
with that key. -/
def mmInsert {α β : Type} (ka : α → String) (v : α) (b : β) :
    List (α × List β) → List (α × List β)
  | [] => [(v, [b])]
  | e :: rest =>
    if ka e.1 == ka v then (e.1, e.2 ++ [b]) :: rest
    else e :: mmInsert ka v b rest

/-- The value list stored for key `k`, or `[]` when no entry has that key. -/
def mmGet {α β : Type} (ka : α → String) (m : List (α × List β)) (k : String) : List β :=
  ((m.find? (fun e => ka e.1 == k)).map Prod.snd).getD []

/-- The keys of a multimap, in entry order. -/
def mmKeys {α β : Type} (ka : α → String) (m : List (α × List β)) : List String :=
  m.map (fun e => ka e.1)

/-- One iteration of the loop of `PackageDAG.reverse` for the entry
`kv = (k, vs)`: every edge `v ∈ vs` adds dependent `k.as_parent_of(v)` under
the key-deduplicated node for `v`; afterwards `k` is promoted to a leaf
entry `k.as_requirement() → []` when its key is nobody's dependency
(`ck` is the precomputed set of all child keys). -/
def revStep (ck : List String) (m : List (ReqPackage × List DistPackage))
    (kv : DistPackage × List ReqPackage) : List (ReqPackage × List DistPackage) :=
  let m' := kv.2.foldl
    (fun m v => mmInsert ReqPackage.key v (kv.1.as_parent_of (some v)) m) m
  if kv.1.key ∈ ck then m' else m' ++ [(kv.1.as_requirement, [])]

/-- `PackageDAG.reverse`. -/
def PackageDAG.reverse (g : PackageDAG) : ReversedPackageDAG :=
  ⟨g.m.foldl (revStep ((g.m.flatMap Prod.snd).map (fun r => r.key))) []⟩

/-- One iteration of the loop of `ReversedPackageDAG.reverse` for the entry
`kv = (k, vs)`: a dependent `v` is re-rooted as `v.as_parent_of(None)` and a
reversed root `k` that is nobody's dependent is promoted via `k.dist`.  When
`k.dist` is `None` the Python code stores a `None` key, on which the
subsequent `PackageDAG.__init__` index construction raises
(`None` has no `key` attribute); that failure is the `none` result. -/
def revRevStep (ck : List String) (m : List (DistPackage × List ReqPackage))
    (kv : ReqPackage × List DistPackage) : Option (List (DistPackage × List ReqPackage)) :=
  let m' := kv.2.foldl
    (fun m v => mmInsert DistPackage.key (v.as_parent_of none) kv.1 m) m
  if kv.1.key ∈ ck then some m'
  else
    match kv.1.dist with
    | some b => some (m' ++ [((⟨b, none⟩ : DistPackage), [])])
    | none => none

/-- Total twin of `revRevStep`, used to reason about the runs in which the
`None`-`dist` failure is not reached; on such runs the two agree. -/
def revRevStepPure (ck : List String) (m : List (DistPackage × List ReqPackage))
    (kv : ReqPackage × List DistPackage) : List (DistPackage × List ReqPackage) :=
  let m' := kv.2.foldl
    (fun m v => mmInsert DistPackage.key (v.as_parent_of none) kv.1 m) m
  if kv.1.key ∈ ck then m'
  else
    match kv.1.dist with
    | some b => m' ++ [((⟨b, none⟩ : DistPackage), [])]
    | none => m'

/-- `ReversedPackageDAG.reverse`. -/
def ReversedPackageDAG.reverse (g : ReversedPackageDAG) : Option PackageDAG :=
  (g.m.foldlM (revRevStep ((g.m.flatMap Prod.snd).map (fun d => d.key)))
    []).map PackageDAG.mk

/-- Order on tree entries used by `sorted_tree`: ascending package key. -/
def entryLe (a b : DistPackage × List ReqPackage) : Prop :=
  strLe a.1.key b.1.key = true

instance : DecidableRel entryLe := fun a b =>
  inferInstanceAs (Decidable (_ = true))

/-- Order on requirement edges used by `sorted_tree`. -/
def reqLe (a b : ReqPackage) : Prop := strLe a.key b.key = true

instance : DecidableRel reqLe := fun a b =>
  inferInstanceAs (Decidable (_ = true))

/-- `sorted_tree`: sort every value list by key, then sort the entries by
root key (Python's `sorted` is a stable ascending sort). -/
def sorted_tree (m : List (DistPackage × List ReqPackage)) :
    List (DistPackage × List ReqPackage) :=
  List.insertionSort entryLe
    (m.map (fun kv => (kv.1, List.insertionSort reqLe kv.2)))

/-- `PackageDAG.sort`. -/
def PackageDAG.sort (g : PackageDAG) : PackageDAG := ⟨sorted_tree g.m⟩

/-- Normalisation of the `include` argument of `PackageDAG.filter`: a truthy
(non-empty) set is lower-cased, `None` and the empty set are kept. -/
def normIncl : Option (List String) → Option (List String)
  | none => none
  | some l => if l.isEmpty then some l else some (l.map lowerStr)

/-- Normalisation of the `exclude` argument of `PackageDAG.filter`: a truthy
set is lower-cased, `None` and the empty set become the empty set. -/
def normExcl : Option (List String) → List String
  | none => []
  | some l => if l.isEmpty then [] else l.map lowerStr

/-- Total number of requirement edges of the graph; used only as a bound in
the termination measure of the traversal below. -/
def totalEdges (g : PackageDAG) : Nat := (g.m.flatMap Prod.snd).length

/-- The set of root keys, as a finite set. -/
def keyFinset (g : PackageDAG) : Finset String :=
  (g.m.map (fun e => e.1.key)).toFinset

/-- Number of root keys not yet marked seen. -/
def unseenCard (g : PackageDAG) (seen : List String) : Nat :=
  ((keyFinset g).filter (fun k => k ∉ seen)).card

/-- Weight of the traversal stack: a node whose key is already seen expands
no further and counts `totalEdges g + 1`; an unseen node counts 1. -/
def stackWeight (g : PackageDAG) (seen : List String) (stack : List DistPackage) : Nat :=
  (stack.map (fun x => if x.key ∈ seen then totalEdges g + 1 else 1)).sum

/-- `seen.add(k)`. -/
def insertKey (k : String) (seen : List String) : List String :=
  if k ∈ seen then seen else k :: seen

/-- `m[n] = cldn`: replace the value of the entry for node `n`, keeping its
position, or append a new entry. -/
def mUpdate (n : DistPackage) (cldn : List ReqPackage) :
    List (DistPackage × List ReqPackage) → List (DistPackage × List ReqPackage)
  | [] => [(n, cldn)]
  | e :: rest => if e.1 = n then (n, cldn) :: rest else e :: mUpdate n cldn rest

/-- The non-excluded children of a popped node:
`[c for c in self._obj[n] if c.key not in exclude]`. -/
def childList (g : PackageDAG) (excl : List String) (n : DistPackage) : List ReqPackage :=
  ((g.lookup n).getD []).filter (fun c => c.key ∉ excl)

/-- The nodes pushed while visiting the stored children: for every child
whose key is not yet seen, the root node registered for that key, if any
(a missing dependency pushes nothing). -/
def pushList (g : PackageDAG) (seen : List String) (cldn : List ReqPackage) :
    List DistPackage :=
  (cldn.filter (fun c => c.key ∉ seen)).filterMap
    (fun c => g.get_node_as_parent c.key)

theorem pushList_mem_roots {g : PackageDAG} {seen : List String}
    {cldn : List ReqPackage} {x : DistPackage} (hx : x ∈ pushList g seen cldn) :
    x ∈ g.roots := by
  obtain ⟨c, _, hcx⟩ := List.mem_filterMap.mp hx
  have hmem := List.mem_of_find?_eq_some hcx
  rwa [List.mem_reverse] at hmem

theorem pushList_key_unseen {g : PackageDAG} {seen : List String}
    {cldn : List ReqPackage} {x : DistPackage} (hx : x ∈ pushList g seen cldn) :
    x.key ∉ seen := by
  obtain ⟨c, hc, hcx⟩ := List.mem_filterMap.mp hx
  have hxk : x.key = c.key := by
    have := List.find?_some hcx
    simpa using this
  have := List.of_mem_filter hc
  rw [hxk]
  simpa using this

theorem childList_length_le (g : PackageDAG) (excl : List String) (n : DistPackage) :
    (childList g excl n).length ≤ totalEdges g := by
  have h2 : (childList g excl n).length ≤ ((g.lookup n).getD []).length :=
    List.length_filter_le _ _
  have h3 : ((g.lookup n).getD []).length ≤ totalEdges g := by
    unfold PackageDAG.lookup totalEdges
    cases hf : (g.m.reverse.find? (fun e => decide (e.1 = n))) with
    | none => simp
    | some e =>
      simp only [hf, Option.map_some', Option.getD_some]
      have he : e ∈ g.m := by
        have := List.mem_of_find?_eq_some hf
        rwa [List.mem_reverse] at this
      rw [List.length_flatMap]
      exact List.single_le_sum (by simp) _
        (List.mem_map_of_mem (List.length ∘ Prod.snd) he)
  omega

/-- The `while` loop of `PackageDAG.filter`: pop a node, store its
non-excluded children, mark its key seen, and push the root node of every
child key that is not yet seen.  The stack holds root nodes of `g`
(the seeds and every pushed `get_node_as_parent` result), which the proof
argument records. -/
def drain (g : PackageDAG) (excl : List String) :
    (stack : List DistPackage) → (seen : List String) →
    (m : List (DistPackage × List ReqPackage)) →
    (∀ x ∈ stack, x ∈ g.roots) →
    List String × List (DistPackage × List ReqPackage)
  | [], seen, m, _ => (seen, m)
  | n :: rest, seen, m, h =>
    let cldn := childList g excl n
    let m' := mUpdate n cldn m
    let seen' := insertKey n.key seen
    drain g excl ((pushList g seen' cldn).reverse ++ rest) seen' m'
      (by
        intro x hx
        rcases List.mem_append.mp hx with hx | hx
        · exact pushList_mem_roots (List.mem_reverse.mp hx)
        · exact h x (List.mem_cons_of_mem _ hx))
termination_by stack seen _ _ => (unseenCard g seen, stackWeight g seen stack)
decreasing_by
  by_cases hk : n.key ∈ seen
  · have hseen : insertKey n.key seen = seen := by simp [insertKey, hk]
    rw [hseen]
    apply Prod.Lex.right
    show stackWeight g seen
        ((pushList g seen (childList g excl n)).reverse ++ rest)
      < stackWeight g seen (n :: rest)
    unfold stackWeight
    rw [List.map_append, List.sum_append, List.map_cons, List.sum_cons, if_pos hk]
    have hsum : ((pushList g seen (childList g excl n)).reverse.map
        (fun x => if x.key ∈ seen then totalEdges g + 1 else 1)).sum
        ≤ totalEdges g := by
      have hle1 : ((pushList g seen (childList g excl n)).reverse.map
          (fun x => if x.key ∈ seen then totalEdges g + 1 else 1)).sum
          ≤ ((pushList g seen (childList g excl n)).reverse.map
          (fun x => if x.key ∈ seen then totalEdges g + 1 else 1)).length • 1 := by
        apply List.sum_le_card_nsmul
        intro x hx
        obtain ⟨y, hy, rfl⟩ := List.mem_map.mp hx
        have hy' : y.key ∉ seen := pushList_key_unseen (List.mem_reverse.mp hy)
        simp [hy']
      have hlen : (pushList g seen (childList g excl n)).length
          ≤ (childList g excl n).length := by
        unfold pushList
        have ha : (((childList g excl n).filter (fun c => c.key ∉ seen)).filterMap
            (fun c => g.get_node_as_parent c.key)).length
            ≤ ((childList g excl n).filter (fun c => c.key ∉ seen)).length :=
          List.length_filterMap_le _ _
        have hb : ((childList g excl n).filter (fun c => c.key ∉ seen)).length
            ≤ (childList g excl n).length := List.length_filter_le _ _
        omega
      have := childList_length_le g excl n
      simp only [List.length_map, List.length_reverse, smul_eq_mul, mul_one] at hle1
      omega
    omega
  · apply Prod.Lex.left
    show unseenCard g (insertKey n.key seen) < unseenCard g seen
    unfold unseenCard
    have hne : insertKey n.key seen = n.key :: seen := by
      simp [insertKey, hk]
    rw [hne]
    apply Finset.card_lt_card
    constructor
    · intro x hx
      rw [Finset.mem_filter] at hx ⊢
      refine ⟨hx.1, ?_⟩
      have hx2 := hx.2
      simp only [List.mem_cons, not_or] at hx2
      exact hx2.2
    · intro hsub
      have hn : n ∈ g.roots := h n (List.mem_cons_self n rest)
      have hnk : n.key ∈ keyFinset g := by
        unfold keyFinset
        rw [List.mem_toFinset]
        unfold PackageDAG.roots at hn
        obtain ⟨e, he, rfl⟩ := List.mem_map.mp hn
        exact List.mem_map_of_mem _ he
      have h1 : n.key ∈ (keyFinset g).filter (fun k => k ∉ seen) := by
        rw [Finset.mem_filter]
        exact ⟨hnk, by simpa using hk⟩
      have h2 := hsub h1
      rw [Finset.mem_filter] at h2
      simp at h2

/-- The condition of the `assert` in `PackageDAG.filter`: both normalised
sets truthy (non-`None`, non-empty) with a non-empty intersection. -/
def filterOverlap (incl' : Option (List String)) (excl' : List String) : Bool :=
  match incl' with
  | none => false
  | some l => !l.isEmpty && !excl'.isEmpty && l.any (fun s => s ∈ excl')

/-- One iteration of the `for node in self._obj.keys()` loop of
`PackageDAG.filter`: skip excluded roots, push the root onto the stack when
it passes the include filter, then run the `while` loop to exhaustion. -/
def filterStep (g : PackageDAG) (incl' : Option (List String)) (excl' : List String)
    (st : List String × List (DistPackage × List ReqPackage))
    (node : DistPackage) (hn : node ∈ g.roots) :
    List String × List (DistPackage × List ReqPackage) :=
  if node.key ∈ excl' then st
  else if incl' = none ∨ node.key ∈ incl'.getD [] then
    drain g excl' [node] st.1 st.2
      (by
        intro x hx
        rw [List.mem_singleton] at hx
        rw [hx]
        exact hn)
  else st

/-- `PackageDAG.filter`: short-circuit when both arguments are `None`,
normalise both sets to lower case, fail (`AssertionError`) when both are
truthy and intersect, else run the depth-first traversal over all roots and
build the filtered graph from the visited map. -/
def PackageDAG.filter (g : PackageDAG) (incl excl : Option (List String)) :
    Option PackageDAG :=
  if incl = none ∧ excl = none then some g
  else
    let incl' := normIncl incl
    let excl' := normExcl excl
    if filterOverlap incl' excl' then none
    else
      some ⟨(g.m.attach.foldl
        (fun st kv => filterStep g incl' excl' st kv.1.1
          (List.mem_map_of_mem Prod.fst kv.2)) ([], [])).2⟩

/-- `cyclic_deps` from `pipdeptree.py`: for every root `p` and edge `r`, the
pair is cyclic when `p.key` is among the edge keys registered for `r.key` in
the freshly-built key index; the third component is the first edge of
`r.key`'s node whose key is `p.key` (`p` as a dependency of `r`).  The inner
`none` fallbacks are unreachable when the guard holds; the Python code would
raise there. -/
def cyclic_deps (g : PackageDAG) : List (DistPackage × ReqPackage × ReqPackage) :=
  let index : String → List String := fun k =>
    ((g.m.reverse.find? (fun e => e.1.key == k)).map
      (fun e => e.2.map (fun r => r.key))).getD []
  g.m.flatMap (fun kv => kv.2.filterMap (fun r =>
    if kv.1.key ∈ index r.key then
      match g.get_node_as_parent r.key with
      | some nd =>
        match ((g.lookup nd).getD []).find? (fun x => x.key == kv.1.key) with
        | some x => some (kv.1, r, x)
        | none => none
      | none => none
    else none))

/-- The `defaultdict(list)` append of `conflicting_deps`: extend the entry of
root `p`, creating it at the end on first use. -/
def ddAppend (p : DistPackage) (r : ReqPackage) :
    List (DistPackage × List ReqPackage) → List (DistPackage × List ReqPackage)
  | [] => [(p, [r])]
  | e :: rest => if e.1 = p then (e.1, e.2 ++ [r]) :: rest else e :: ddAppend p r rest

/-- `conflicting_deps` from `pipdeptree.py`: collect, per root, the edges
whose requirement is unsatisfied; roots without conflicts get no entry. -/
def conflicting_deps (gv : String → String) (g : PackageDAG) :
    List (DistPackage × List ReqPackage) :=
  g.m.foldl (fun acc kv =>
    kv.2.foldl (fun acc r =>
      if r.is_conflicting gv then ddAppend kv.1 r acc else acc) acc) []

/-- All display names a rendering chain can acquire below a root: the
project names of the requirement edges, deduplicated.  The chain guard adds
only such names, so this list bounds the recursion depth. -/
def branchNames (g : PackageDAG) : List String :=
  ((g.m.flatMap Prod.snd).map (fun r => r.project_name)).dedup

/-- Recursion fuel that the termination theorem proves sufficient for the
recursive renderers. -/
def fuelBound (g : PackageDAG) : Nat := (branchNames g).length + 1

/-- `" " * indent`. -/
def spaces (n : Nat) : String := String.mk (List.replicate n ' ')

/-- The recursive `aux` of `render_text` on non-root nodes: render the node
as a branch with indentation and bullet, then recurse into the children
whose display name is not yet on the chain; each child is rendered with the
chain extended by its own name.  `none` means the fuel ran out. -/
def auxText (g : PackageDAG) (gv : String → String) (frozen : Bool) :
    Nat → ReqPackage → Nat → List String → Option (List String)
  | 0, _, _, _ => none
  | fuel+1, c, indent, chain =>
    let pre := spaces indent ++ (if !frozen then "- " else "")
    let node_str := pre ++ c.render_as_branch gv frozen
    (((g.get_children c.key).filter (fun d => d.project_name ∉ chain)).mapM
      (fun d => auxText g gv frozen fuel d (indent + 2) (chain ++ [d.project_name]))).map
      (fun rs => node_str :: rs.flatten)

/-- `render_text`, returning the printed lines: sort the tree, keep all roots
or only the roots that are nobody's dependency, and render every root
(unprefixed) followed by its branch subtrees, with an empty initial chain. -/
def render_text_lines (g₀ : PackageDAG) (gv : String → String)
    (list_all frozen : Bool) : Option (List String) :=
  let tree := g₀.sort
  let branch_keys := (tree.m.flatMap Prod.snd).map (fun r => r.key)
  let nodes := if list_all then tree.roots
    else tree.roots.filter (fun p => p.key ∉ branch_keys)
  (nodes.mapM (fun p =>
    let chain : List String := []
    (((tree.get_children p.key).filter (fun c => c.project_name ∉ chain)).mapM
      (fun c => auxText tree gv frozen (fuelBound tree) c 2 (chain ++ [c.project_name]))).map
      (fun rs => p.render_as_root frozen :: rs.flatten))).map List.flatten

/-- A node of the nested JSON produced by `render_json_tree`. -/
inductive JTree where
  | node (key package_name installed_version required_version : String)
      (dependencies : List JTree)
deriving Repr

/-- The recursive `aux` of `render_json_tree` on non-top-level nodes: the
`required_version` is the parent's constraint (or `"Any"`), and the children
are the ones whose display name is not yet on the chain. -/
def auxJson (g : PackageDAG) (gv : String → String) :
    Nat → ReqPackage → List String → Option JTree
  | 0, _, _ => none
  | fuel+1, c, chain =>
    (((g.get_children c.key).filter (fun d => d.project_name ∉ chain)).mapM
      (fun d => auxJson g gv fuel d (chain ++ [d.project_name]))).map
      (fun ds => JTree.node c.key c.project_name (c.installed_version gv)
        ((c.version_spec).getD "Any") ds)

/-- `render_json_tree`: sort the tree, keep only the roots that are nobody's
dependency; a top-level node's `required_version` is its own installed
version and its chain starts with its own display name. -/
def render_json_tree (g₀ : PackageDAG) (gv : String → String) : Option (List JTree) :=
  let tree := g₀.sort
  let branch_keys := (tree.m.flatMap Prod.snd).map (fun r => r.key)
  let nodes := tree.roots.filter (fun p => p.key ∉ branch_keys)
  nodes.mapM (fun p =>
    let chain : List String := [p.project_name]
    (((tree.get_children p.key).filter (fun c => c.project_name ∉ chain)).mapM
      (fun c => auxJson tree gv (fuelBound tree) c (chain ++ [c.project_name]))).map
      (fun ds => JTree.node p.key p.project_name p.version p.version ds))

/-- A traversal seed of `PackageDAG.filter`: a root that is not excluded and
passes the include filter. -/
def IsSeed (g : PackageDAG) (incl' : Option (List String)) (excl' : List String)
    (n : DistPackage) : Prop :=
  n ∈ g.roots ∧ n.key ∉ excl' ∧ (incl' = none ∨ n.key ∈ incl'.getD [])

/-- Reachability along non-excluded edges, resolving each child key through
the graph's index, exactly as the filter traversal expands nodes. -/
inductive Reaches (g : PackageDAG) (excl : List String) :
    DistPackage → DistPackage → Prop
  | refl (n : DistPackage) : Reaches g excl n n
  | step {s n : DistPackage} {c : ReqPackage} {n' : DistPackage} :
      Reaches g excl s n → c ∈ (g.lookup n).getD [] → c.key ∉ excl →
      g.get_node_as_parent c.key = some n' → Reaches g excl s n'

/-- The multiset of edge-target keys hanging off the root(s) with key `K`. -/
def childKeysOf (g : PackageDAG) (K : String) : List String :=
  (g.m.filter (fun kv => kv.1.key == K)).flatMap
    (fun kv => kv.2.map (fun r => r.key))

/-- The edge resolved to an installed package whose key is the edge's own
key (`dist` is not `None` and agrees with the requirement). -/
def distMatches (v : ReqPackage) : Bool :=
  match v.dist with
  | some b => b.key == v.key
  | none => false

/-- Well-formedness of a forward graph as `from_pkgs` builds it over a
closed package set: root keys are pairwise distinct and every edge resolves
to an installed package whose key is the edge's key and is a root key. -/
def GraphWF (g : PackageDAG) : Prop :=
  g.rootKeys.Nodup ∧
  ∀ kv ∈ g.m, ∀ v ∈ kv.2, distMatches v = true ∧ v.key ∈ g.rootKeys

/-- Strict ascent of a key sequence under case folding. -/
def strictAscFolded (l : List String) : Prop :=
  l.Pairwise (fun a b => strLt (lowerStr a) (lowerStr b) = true)

instance : IsTotal ReqPackage reqLe :=
  ⟨fun a b => strLe_total a.key b.key⟩

instance : IsTrans ReqPackage reqLe :=
  ⟨fun _ _ _ hab hbc => strLe_trans hab hbc⟩

instance : IsTotal (DistPackage × List ReqPackage) entryLe :=
  ⟨fun a b => strLe_total a.1.key b.1.key⟩

instance : IsTrans (DistPackage × List ReqPackage) entryLe :=
  ⟨fun _ _ _ hab hbc => strLe_trans hab hbc⟩

/-- Sample inventory used for concrete evaluations: package `A` version 1.0
declaring `B>=1.0`, package `B` version 2.0 with no requirements. -/
def basB : BasePkg := ⟨"b", "B", "2.0"⟩

def distA : DistPackage := ⟨⟨"a", "A", "1.0"⟩, none⟩

def distB : DistPackage := ⟨basB, none⟩

def reqB : ReqPackage := ⟨"b", "B", [(">=", "1.0")], some basB⟩

def reqA : ReqPackage := ⟨"a", "A", [], some ⟨"a", "A", "1.0"⟩⟩

def reqMissing : ReqPackage := ⟨"b", "B", [], none⟩

def reqBBad : ReqPackage := ⟨"b", "B", [(">=", "3.0")], some basB⟩

def sampleDAG : PackageDAG := ⟨[(distA, [reqB]), (distB, [])]⟩

def cycleDAG : PackageDAG := ⟨[(distA, [reqB]), (distB, [reqA])]⟩

def missingDAG : PackageDAG := ⟨[(distA, [reqMissing])]⟩

def dupDAG : PackageDAG := ⟨[(distA, [reqB, reqB])]⟩

def conflictDAG : PackageDAG := ⟨[(distA, [reqBBad, reqMissing]), (distB, [])]⟩

/-- Environment in which no module can be introspected: `guess_version`
always falls back to the unknown sentinel. -/
def gvNone : String → String := fun _ => UNKNOWN_VERSION

/-! ## Theorems -/

/-- C10: for every graph and every key that is not the key of any root,
`get_node_as_parent` returns `none` and `get_children` returns `[]` — the
public lookup interface is total on missing keys. -/
theorem get_children_total_on_missing_key (g : PackageDAG) (k : String)
    (h : k ∉ g.rootKeys) :
    g.get_node_as_parent k = none ∧ g.get_children k = [] := by
  have hfind : g.get_node_as_parent k = none := by
    unfold PackageDAG.get_node_as_parent
    rw [List.find?_eq_none]
    intro p hp
    rw [List.mem_reverse] at hp
    obtain ⟨e, he, rfl⟩ := List.mem_map.mp hp
    simp only [beq_iff_eq]
    intro hke
    exact h (hke ▸ List.mem_map_of_mem (fun e => e.1.key) he)
  refine ⟨hfind, ?_⟩
  unfold PackageDAG.get_children
  rw [hfind]

theorem get_children_total_on_missing_key_witness :
    "z" ∉ sampleDAG.rootKeys ∧
      (sampleDAG.get_node_as_parent "z" = none ∧
        sampleDAG.get_children "z" = []) :=
  ⟨by decide, get_children_total_on_missing_key sampleDAG "z" (by decide)⟩

/-- C4 counterexample: on the inventory `{A 1.0 requires B>=1.0; B 2.0}` the
second printed line is `  - B [required: >=1.0, installed: 2.0]`, not the
claimed `  - B==2.0 [requires: B>=1.0]` (that format belongs to the reversed
tree's `DistPackage.render_as_branch`). -/
theorem render_text_branch_format_counterexample :
    ((render_text_lines sampleDAG gvNone true false).bind (fun l => l[1]?)
      = some "  - B [required: >=1.0, installed: 2.0]") ∧
    ¬ ((render_text_lines sampleDAG gvNone true false).bind (fun l => l[1]?)
      = some "  - B==2.0 [requires: B>=1.0]") := by decide

/-- C4 (amended): for the inventory in which `A` version 1.0 declares the
single requirement `B>=1.0` and `B` version 2.0 is installed with no
requirements, the text renderer in non-freeze, show-all mode prints the root
line `A==1.0`, the 2-space-indented bullet line
`  - B [required: >=1.0, installed: 2.0]`, and the root line `B==2.0`. -/
theorem render_text_sample_output :
    render_text_lines sampleDAG gvNone true false
      = some ["A==1.0", "  - B [required: >=1.0, installed: 2.0]", "B==2.0"] := by
  decide

/-- C2 counterexample: on the two-package cycle `A→B`, `B→A`, `cyclic_deps`
does not return exactly the single triple `(A, B, A-as-dependency-of-B)`:
it returns two triples. -/
theorem cyclic_deps_two_cycle_counterexample :
    ¬ (cyclic_deps cycleDAG = [(distA, reqB, reqA)]) ∧
      (cyclic_deps cycleDAG).length = 2 := by decide

/-- C2 (amended): on a graph holding exactly the two-node cycle `A→B`,
`B→A`, `cyclic_deps` returns exactly the two triples
`(A, B-edge, A-as-dependency-of-B)` and `(B, A-edge, B-as-dependency-of-A)`;
on a pure three-node cycle `A→B→C→A` it returns no triples. -/
theorem cyclic_deps_short_cycles :
    (∀ (a b : DistPackage) (ra rb : ReqPackage),
      a.key ≠ b.key → rb.key = b.key → ra.key = a.key →
      cyclic_deps ⟨[(a, [rb]), (b, [ra])]⟩ = [(a, rb, ra), (b, ra, rb)]) ∧
    (∀ (a b c : DistPackage) (ra rb rc : ReqPackage),
      a.key ≠ b.key → b.key ≠ c.key → a.key ≠ c.key →
      rb.key = b.key → rc.key = c.key → ra.key = a.key →
      cyclic_deps ⟨[(a, [rb]), (b, [rc]), (c, [ra])]⟩ = []) := by
  constructor
  · intro a b ra rb hab hrb hra
    have hba : b.key ≠ a.key := fun h => hab h.symm
    have hne : a ≠ b := fun h => hab (congrArg DistPackage.key h)
    have hne' : b ≠ a := fun h => hba (congrArg DistPackage.key h)
    simp [cyclic_deps, PackageDAG.get_node_as_parent, PackageDAG.lookup,
      hrb, hra, hab, hba, hne, hne']
  · intro a b c ra rb rc hab hbc hac hrb hrc hra
    have hba : b.key ≠ a.key := fun h => hab h.symm
    have hcb : c.key ≠ b.key := fun h => hbc h.symm
    have hca : c.key ≠ a.key := fun h => hac h.symm
    simp [cyclic_deps, PackageDAG.get_node_as_parent, PackageDAG.lookup,
      hrb, hrc, hra, hab, hba, hbc, hcb, hac, hca]

theorem cyclic_deps_short_cycles_witness :
    cyclic_deps cycleDAG = [(distA, reqB, reqA), (distB, reqA, reqB)] :=
  cyclic_deps_short_cycles.1 distA distB reqA reqB (by decide) (by decide) (by decide)

theorem filterOverlap_iff (incl excl : Option (List String)) :
    filterOverlap (normIncl incl) (normExcl excl) = true ↔
      ∃ a ∈ incl.getD [], ∃ b ∈ excl.getD [], lowerStr a = lowerStr b := by
  cases incl with
  | none => simp [normIncl, filterOverlap]
  | some li =>
    by_cases hli : li.isEmpty
    · rw [List.isEmpty_iff] at hli
      subst hli
      simp [normIncl, filterOverlap]
    · have hni : normIncl (some li) = some (li.map lowerStr) := by
        simp [normIncl, hli]
      rw [hni]
      have hmapli : (li.map lowerStr).isEmpty = false := by
        cases li with
        | nil => exact absurd rfl hli
        | cons x xs => rfl
      cases excl with
      | none => simp [normExcl, filterOverlap]
      | some le =>
        by_cases hle : le.isEmpty
        · rw [List.isEmpty_iff] at hle
          subst hle
          simp [normExcl, filterOverlap]
        · have hne : normExcl (some le) = le.map lowerStr := by
            simp [normExcl, hle]
          rw [hne]
          have hmaple : (le.map lowerStr).isEmpty = false := by
            cases le with
            | nil => exact absurd rfl hle
            | cons x xs => rfl
          simp only [filterOverlap, hmapli, hmaple, Bool.not_false,
            Bool.true_and, List.any_eq_true, Option.getD_some]
          constructor
          · intro h
            obtain ⟨x, hx, hmem⟩ := h
            obtain ⟨a, ha, rfl⟩ := List.mem_map.mp hx
            rw [decide_eq_true_eq] at hmem
            obtain ⟨b, hb, hba⟩ := List.mem_map.mp hmem
            exact ⟨a, ha, b, hb, hba.symm⟩
          · rintro ⟨a, ha, b, hb, hab⟩
            refine ⟨lowerStr a, List.mem_map_of_mem lowerStr ha, ?_⟩
            rw [decide_eq_true_eq, hab]
            exact List.mem_map_of_mem lowerStr hb

/-- C7: `PackageDAG.filter` fails with the precondition violation
(`AssertionError`, the `none` result) exactly when the include and exclude
sets share a member after case folding; on disjoint sets it always returns a
graph, the failure being checked before the traversal starts. -/
theorem filter_none_iff_overlap (g : PackageDAG) (incl excl : Option (List String)) :
    g.filter incl excl = none ↔
      ∃ a ∈ incl.getD [], ∃ b ∈ excl.getD [], lowerStr a = lowerStr b := by
  rw [← filterOverlap_iff incl excl]
  unfold PackageDAG.filter
  by_cases h0 : incl = none ∧ excl = none
  · rw [if_pos h0]
    obtain ⟨h1, h2⟩ := h0
    subst h1
    subst h2
    simp [normIncl, normExcl, filterOverlap]
  · rw [if_neg h0]
    by_cases hov : filterOverlap (normIncl incl) (normExcl excl) = true
    · rw [if_pos hov]
      simp [hov]
    · rw [if_neg hov]
      simp [hov]

theorem get_children_mem_edges {g : PackageDAG} {k : String} {d : ReqPackage}
    (hd : d ∈ g.get_children k) : d ∈ g.m.flatMap Prod.snd := by
  unfold PackageDAG.get_children at hd
  revert hd
  cases hidx : g.get_node_as_parent k with
  | none =>
    intro hd
    exact absurd hd (by simp)
  | some n =>
    intro hd
    have hd' : d ∈ (g.lookup n).getD [] := hd
    unfold PackageDAG.lookup at hd'
    revert hd'
    cases hf : g.m.reverse.find? (fun e => decide (e.1 = n)) with
    | none =>
      intro hd'
      simp at hd'
    | some e =>
      intro hd'
      simp only [Option.map_some', Option.getD_some] at hd'
      have he : e ∈ g.m := by
        have := List.mem_of_find?_eq_some hf
        rwa [List.mem_reverse] at this
      exact List.mem_flatMap.mpr ⟨e, he, hd'⟩

theorem branchNames_mem {g : PackageDAG} {d : ReqPackage}
    (hd : d ∈ g.m.flatMap Prod.snd) : d.project_name ∈ branchNames g := by
  unfold branchNames
  rw [List.mem_dedup]
  exact List.mem_map_of_mem (fun r => r.project_name) hd

theorem chain_filter_length_lt (names chain : List String) (x : String)
    (hx : x ∈ names) (hxc : x ∉ chain) :
    (names.filter (fun s => decide (s ∉ chain ++ [x]))).length
      < (names.filter (fun s => decide (s ∉ chain))).length := by
  have hsub : (names.filter (fun s => decide (s ∉ chain ++ [x]))).Sublist
      (names.filter (fun s => decide (s ∉ chain))) := by
    apply List.monotone_filter_right
    intro a ha
    rw [decide_eq_true_eq] at ha ⊢
    intro hc
    exact ha (List.mem_append_left _ hc)
  refine lt_of_le_of_ne hsub.length_le (fun he => ?_)
  have heq := hsub.eq_of_length he
  have hxin : x ∈ names.filter (fun s => decide (s ∉ chain)) :=
    List.mem_filter.mpr ⟨hx, by simpa using hxc⟩
  rw [← heq] at hxin
  have := (List.mem_filter.mp hxin).2
  rw [decide_eq_true_eq] at this
  exact this (List.mem_append_right _ (List.mem_singleton.mpr rfl))

theorem map_isSome {α β : Type} (f : α → β) {x : Option α}
    (h : x.isSome) : (x.map f).isSome := by
  cases x with
  | none => simp at h
  | some v => rfl

theorem mapM_option_isSome {α β : Type} {f : α → Option β} {l : List α}
    (h : ∀ x ∈ l, (f x).isSome) : (l.mapM f).isSome := by
  induction l with
  | nil => rfl
  | cons a l ih =>
    rw [List.mapM_cons]
    obtain ⟨b, hb⟩ := Option.isSome_iff_exists.mp (h a (List.mem_cons_self a l))
    obtain ⟨bs, hbs⟩ := Option.isSome_iff_exists.mp
      (ih (fun x hx => h x (List.mem_cons_of_mem _ hx)))
    rw [hb, hbs]
    rfl

theorem auxText_isSome (g : PackageDAG) (gv : String → String) (frozen : Bool) :
    ∀ (fuel : Nat) (c : ReqPackage) (indent : Nat) (chain : List String),
      ((branchNames g).filter (fun s => decide (s ∉ chain))).length < fuel →
      (auxText g gv frozen fuel c indent chain).isSome := by
  intro fuel
  induction fuel with
  | zero => intro c indent chain h; omega
  | succ fuel ih =>
    intro c indent chain h
    simp only [auxText]
    have hall : ∀ d ∈ (g.get_children c.key).filter
        (fun d => d.project_name ∉ chain),
        (auxText g gv frozen fuel d (indent + 2)
          (chain ++ [d.project_name])).isSome := by
      intro d hd
      have hdc := List.mem_filter.mp hd
      have hname : d.project_name ∈ branchNames g :=
        branchNames_mem (get_children_mem_edges hdc.1)
      have hnotc : d.project_name ∉ chain := by
        have := hdc.2
        rwa [decide_eq_true_eq] at this
      apply ih
      have := chain_filter_length_lt (branchNames g) chain d.project_name hname hnotc
      omega
    exact map_isSome _ (mapM_option_isSome hall)

theorem auxJson_isSome (g : PackageDAG) (gv : String → String) :
    ∀ (fuel : Nat) (c : ReqPackage) (chain : List String),
      ((branchNames g).filter (fun s => decide (s ∉ chain))).length < fuel →
      (auxJson g gv fuel c chain).isSome := by
  intro fuel
  induction fuel with
  | zero => intro c chain h; omega
  | succ fuel ih =>
    intro c chain h
    simp only [auxJson]
    have hall : ∀ d ∈ (g.get_children c.key).filter
        (fun d => d.project_name ∉ chain),
        (auxJson g gv fuel d (chain ++ [d.project_name])).isSome := by
      intro d hd
      have hdc := List.mem_filter.mp hd
      have hname : d.project_name ∈ branchNames g :=
        branchNames_mem (get_children_mem_edges hdc.1)
      have hnotc : d.project_name ∉ chain := by
        have := hdc.2
        rwa [decide_eq_true_eq] at this
      apply ih
      have := chain_filter_length_lt (branchNames g) chain d.project_name hname hnotc
      omega
    exact map_isSome _ (mapM_option_isSome hall)

/-- C9: both recursive renderers terminate on every finite graph, cyclic or
not: with the fuel bound justified by the chain guard (a child already named
on the chain is not descended into), the renderers always produce output. -/
theorem renderers_terminate (g : PackageDAG) (gv : String → String)
    (list_all frozen : Bool) :
    (render_text_lines g gv list_all frozen).isSome ∧
      (render_json_tree g gv).isSome := by
  constructor
  · simp only [render_text_lines]
    apply map_isSome
    apply mapM_option_isSome
    intro p _
    apply map_isSome
    apply mapM_option_isSome
    intro c _
    apply auxText_isSome
    unfold fuelBound
    have := List.length_filter_le
      (fun s => decide (s ∉ ([] : List String) ++ [c.project_name]))
      (branchNames (g.sort))
    omega
  · simp only [render_json_tree]
    apply mapM_option_isSome
    intro p _
    apply map_isSome
    apply mapM_option_isSome
    intro c _
    apply auxJson_isSome
    unfold fuelBound
    have := List.length_filter_le
      (fun s => decide (s ∉ [p.project_name] ++ [c.project_name]))
      (branchNames (g.sort))
    omega

theorem ddAppend_fresh (p : DistPackage) (r : ReqPackage)
    (m : List (DistPackage × List ReqPackage)) (hp : ∀ e ∈ m, e.1 ≠ p) :
    ddAppend p r m = m ++ [(p, [r])] := by
  induction m with
  | nil => rfl
  | cons e rest ih =>
    rw [ddAppend, if_neg (hp e (List.mem_cons_self e rest)),
      ih (fun x hx => hp x (List.mem_cons_of_mem _ hx))]
    rfl

theorem ddAppend_found (p : DistPackage) (r : ReqPackage)
    (m₀ : List (DistPackage × List ReqPackage)) (acc : List ReqPackage)
    (hp : ∀ e ∈ m₀, e.1 ≠ p) :
    ddAppend p r (m₀ ++ [(p, acc)]) = m₀ ++ [(p, acc ++ [r])] := by
  induction m₀ with
  | nil =>
    rw [List.nil_append, ddAppend, if_pos rfl]
    rfl
  | cons e rest ih =>
    rw [List.cons_append, ddAppend, if_neg (hp e (List.mem_cons_self e rest)),
      ih (fun x hx => hp x (List.mem_cons_of_mem _ hx))]
    rfl

theorem confFold_present (gv : String → String) (p : DistPackage) :
    ∀ (rs : List ReqPackage) (m₀ : List (DistPackage × List ReqPackage))
      (acc : List ReqPackage), (∀ e ∈ m₀, e.1 ≠ p) →
      rs.foldl (fun acc r => if r.is_conflicting gv then ddAppend p r acc else acc)
          (m₀ ++ [(p, acc)])
        = m₀ ++ [(p, acc ++ rs.filter (ReqPackage.is_conflicting gv))] := by
  intro rs
  induction rs with
  | nil => intro m₀ acc hp; simp
  | cons r rs ih =>
    intro m₀ acc hp
    rw [List.foldl_cons]
    by_cases hc : r.is_conflicting gv
    · rw [if_pos hc, ddAppend_found p r m₀ acc hp, ih m₀ (acc ++ [r]) hp,
        List.filter_cons_of_pos hc]
      simp
    · rw [if_neg hc, ih m₀ acc hp, List.filter_cons_of_neg (by simpa using hc)]

theorem confFold_fresh (gv : String → String) (p : DistPackage)
    (rs : List ReqPackage) (m₀ : List (DistPackage × List ReqPackage))
    (hp : ∀ e ∈ m₀, e.1 ≠ p) :
    rs.foldl (fun acc r => if r.is_conflicting gv then ddAppend p r acc else acc) m₀
      = m₀ ++ (if rs.filter (ReqPackage.is_conflicting gv) = [] then []
          else [(p, rs.filter (ReqPackage.is_conflicting gv))]) := by
  induction rs with
  | nil => simp
  | cons r rs ih =>
    rw [List.foldl_cons]
    by_cases hc : r.is_conflicting gv
    · rw [if_pos hc, ddAppend_fresh p r m₀ hp, confFold_present gv p rs m₀ [r] hp,
        List.filter_cons_of_pos hc]
      rw [if_neg (by simp)]
      simp
    · rw [if_neg hc, ih, List.filter_cons_of_neg (by simpa using hc)]

theorem confOuter (gv : String → String) :
    ∀ (l : List (DistPackage × List ReqPackage))
      (m₀ : List (DistPackage × List ReqPackage)),
      (∀ kv ∈ l, ∀ e ∈ m₀, e.1 ≠ kv.1) → (l.map Prod.fst).Nodup →
      l.foldl (fun acc kv =>
          kv.2.foldl (fun acc r =>
            if r.is_conflicting gv then ddAppend kv.1 r acc else acc) acc) m₀
        = m₀ ++ ((l.map (fun kv =>
            (kv.1, kv.2.filter (ReqPackage.is_conflicting gv)))).filter
              (fun kv => !kv.2.isEmpty)) := by
  intro l
  induction l with
  | nil => intro m₀ _ _; simp
  | cons kv l ih =>
    intro m₀ hfr hnd
    rw [List.foldl_cons,
      confFold_fresh gv kv.1 kv.2 m₀ (hfr kv (List.mem_cons_self kv l))]
    rw [List.map_cons]
    by_cases hemp : kv.2.filter (ReqPackage.is_conflicting gv) = []
    · rw [if_pos hemp, List.append_nil]
      rw [ih m₀ (fun kv' hkv' e he => hfr kv' (List.mem_cons_of_mem _ hkv') e he)
        (by exact (List.nodup_cons.mp hnd).2)]
      rw [List.filter_cons_of_neg (by simp [hemp])]
    · rw [if_neg hemp]
      have hhead : kv.1 ∉ l.map Prod.fst := (List.nodup_cons.mp hnd).1
      rw [ih (m₀ ++ [(kv.1, kv.2.filter (ReqPackage.is_conflicting gv))])
        (fun kv' hkv' e he => by
          rcases List.mem_append.mp he with he | he
          · exact hfr kv' (List.mem_cons_of_mem _ hkv') e he
          · rw [List.mem_singleton] at he
            rw [he]
            intro hek
            exact hhead (hek ▸ List.mem_map_of_mem Prod.fst hkv'))
        (by exact (List.nodup_cons.mp hnd).2)]
      rw [List.filter_cons_of_pos (by simp [hemp]), List.append_assoc]
      rfl

theorem conflicting_deps_eq (gv : String → String) (g : PackageDAG)
    (h : (g.m.map Prod.fst).Nodup) :
    conflicting_deps gv g
      = (g.m.map (fun kv =>
          (kv.1, kv.2.filter (ReqPackage.is_conflicting gv)))).filter
            (fun kv => !kv.2.isEmpty) := by
  unfold conflicting_deps
  rw [confOuter gv g.m [] (by intro kv _ e he; simp at he) h]
  rfl

/-- C5: an edge conflicts iff it is missing (its resolved version is the
unknown sentinel) or its resolved version does not satisfy its constraint;
an empty constraint is satisfied by every version; and the conflict map has
an entry for a root iff at least one of the root's edges conflicts (it is
then exactly the conflicting sublist, conflict-free roots being omitted). -/
theorem conflicting_deps_spec :
    (∀ (gv : String → String) (r : ReqPackage),
      r.is_conflicting gv
        = (r.is_missing gv || !(versionSatisfies (r.installed_version gv) r.specs))) ∧
    (∀ iv : String, versionSatisfies iv [] = true) ∧
    (∀ (gv : String → String) (g : PackageDAG), (g.m.map Prod.fst).Nodup →
      conflicting_deps gv g
        = (g.m.map (fun kv =>
            (kv.1, kv.2.filter (ReqPackage.is_conflicting gv)))).filter
              (fun kv => !kv.2.isEmpty) ∧
      ∀ p : DistPackage, (∃ e ∈ conflicting_deps gv g, e.1 = p) ↔
        ∃ kv ∈ g.m, kv.1 = p ∧ ∃ r ∈ kv.2, r.is_conflicting gv) := by
  refine ⟨?_, ?_, ?_⟩
  · intro gv r
    unfold ReqPackage.is_conflicting ReqPackage.is_missing
    by_cases h : (r.installed_version gv == UNKNOWN_VERSION) = true
    · rw [if_pos h, h]
      rfl
    · rw [if_neg h, Bool.not_eq_true] at *
      rw [h]
      rfl
  · intro iv
    rfl
  · intro gv g h
    refine ⟨conflicting_deps_eq gv g h, ?_⟩
    intro p
    rw [conflicting_deps_eq gv g h]
    constructor
    · rintro ⟨e, he, rfl⟩
      rw [List.mem_filter] at he
      obtain ⟨hmem, hne⟩ := he
      obtain ⟨kv, hkv, rfl⟩ := List.mem_map.mp hmem
      refine ⟨kv, hkv, rfl, ?_⟩
      have hnil : kv.2.filter (ReqPackage.is_conflicting gv) ≠ [] := by
        intro hcon
        rw [hcon] at hne
        simp at hne
      obtain ⟨r, hr⟩ := List.exists_mem_of_ne_nil _ hnil
      have hr' := List.mem_filter.mp hr
      exact ⟨r, hr'.1, hr'.2⟩
    · rintro ⟨kv, hkv, rfl, r, hr, hc⟩
      refine ⟨(kv.1, kv.2.filter (ReqPackage.is_conflicting gv)),
        List.mem_filter.mpr ⟨List.mem_map_of_mem _ hkv, ?_⟩, rfl⟩
      have hmem : r ∈ kv.2.filter (ReqPackage.is_conflicting gv) :=
        List.mem_filter.mpr ⟨hr, hc⟩
      have : kv.2.filter (ReqPackage.is_conflicting gv) ≠ [] :=
        List.ne_nil_of_mem hmem
      simpa using this

theorem conflicting_deps_spec_witness :
    (conflictDAG.m.map Prod.fst).Nodup ∧
      conflicting_deps gvNone conflictDAG
        = (conflictDAG.m.map (fun kv =>
            (kv.1, kv.2.filter (ReqPackage.is_conflicting gvNone)))).filter
              (fun kv => !kv.2.isEmpty) :=
  ⟨by decide, (conflicting_deps_spec.2.2 gvNone conflictDAG (by decide)).1⟩

theorem str_ext {a b : String} (h : a.data = b.data) : a = b := by
  cases a
  cases b
  exact congrArg String.mk h

theorem strLt_of_strLe_ne {a b : String} (h : strLe a b = true) (hne : a ≠ b) :
    strLt a b = true := by
  unfold strLe at h
  unfold strLt at h ⊢
  cases hab : cmpChars a.data b.data with
  | lt => rfl
  | eq => exact absurd (str_ext (cmpChars_eq hab)) hne
  | gt =>
    have : cmpChars b.data a.data = .lt := cmpChars_lt_iff_gt.mpr hab
    rw [this] at h
    exact absurd h (by decide)

theorem sorted_tree_idem (m : List (DistPackage × List ReqPackage)) :
    sorted_tree (sorted_tree m) = sorted_tree m := by
  unfold sorted_tree
  have hmap : (List.insertionSort entryLe
      (m.map (fun kv => (kv.1, List.insertionSort reqLe kv.2)))).map
        (fun kv => (kv.1, List.insertionSort reqLe kv.2))
      = List.insertionSort entryLe
        (m.map (fun kv => (kv.1, List.insertionSort reqLe kv.2))) := by
    conv_rhs => rw [← List.map_id (List.insertionSort entryLe
      (m.map (fun kv => (kv.1, List.insertionSort reqLe kv.2))))]
    apply List.map_congr_left
    intro e he
    rw [List.mem_insertionSort] at he
    obtain ⟨kv, _, rfl⟩ := List.mem_map.mp he
    show (kv.1, List.insertionSort reqLe (List.insertionSort reqLe kv.2)) = _
    rw [List.Sorted.insertionSort_eq (List.sorted_insertionSort reqLe kv.2)]
    rfl
  rw [hmap]
  exact List.Sorted.insertionSort_eq (List.sorted_insertionSort entryLe _)

/-- C6 counterexample: on the graph whose single root lists the same
requirement key twice, the edge-key sequence of the sorted graph is
`["b", "b"]`, which is not strictly ascending — `sorted` cannot make a
sequence with duplicate keys strictly ascending. -/
theorem sort_strict_counterexample :
    ¬ (∀ kv ∈ (dupDAG.sort).m, strictAscFolded (kv.2.map ReqPackage.key)) := by
  intro h
  have h1 : ((distA, [reqB, reqB]) : DistPackage × List ReqPackage)
      ∈ (dupDAG.sort).m := by decide
  have h2 := h _ h1
  have h3 : strictAscFolded ["b", "b"] := h2
  unfold strictAscFolded at h3
  have h4 := (List.pairwise_cons.mp h3).1 "b" (List.mem_singleton.mpr rfl)
  exact absurd h4 (by decide)

/-- C6 (amended): `sort` applied twice equals `sort` applied once on every
graph; and on a graph whose keys are case-folded and pairwise distinct
(roots and within each root's edge list — the data-model invariant), the
root-key sequence and every edge-key sequence of `sort(G)` are strictly
ascending by case-folded key.  With duplicate keys in an edge list the
ascent is not strict (see the counterexample). -/
theorem sort_idempotent_and_sorted :
    (∀ g : PackageDAG, g.sort.sort = g.sort) ∧
    (∀ g : PackageDAG,
      g.rootKeys.Nodup → (∀ k ∈ g.rootKeys, lowerStr k = k) →
      (∀ kv ∈ g.m, (kv.2.map ReqPackage.key).Nodup ∧
        ∀ r ∈ kv.2, lowerStr r.key = r.key) →
      strictAscFolded (g.sort.rootKeys) ∧
      ∀ kv ∈ g.sort.m, strictAscFolded (kv.2.map ReqPackage.key)) := by
  constructor
  · intro g
    show PackageDAG.mk (sorted_tree (sorted_tree g.m)) = _
    rw [sorted_tree_idem]
    rfl
  · intro g hnd hlow hedge
    have hperm : (sorted_tree g.m).Perm
        (g.m.map (fun kv => (kv.1, List.insertionSort reqLe kv.2))) :=
      List.perm_insertionSort entryLe _
    have hkeysperm : ((sorted_tree g.m).map (fun e => e.1.key)).Perm
        (g.m.map (fun e => e.1.key)) := by
      have h1 := hperm.map (fun e => e.1.key)
      rwa [List.map_map] at h1
    constructor
    · show strictAscFolded ((sorted_tree g.m).map (fun e => e.1.key))
      have hsorted : List.Sorted entryLe (sorted_tree g.m) :=
        List.sorted_insertionSort entryLe _
      have hndk : ((sorted_tree g.m).map (fun e => e.1.key)).Nodup :=
        hkeysperm.nodup_iff.mpr hnd
      have hple : ((sorted_tree g.m).map (fun e => e.1.key)).Pairwise
          (fun a b => strLe a b = true) := by
        rw [List.pairwise_map]
        exact hsorted
      have hpne : ((sorted_tree g.m).map (fun e => e.1.key)).Pairwise
          (fun a b => a ≠ b) := hndk
      unfold strictAscFolded
      have hcomb := hple.and hpne
      apply hcomb.imp_of_mem
      intro a b ha _ hab
      have hamem : a ∈ g.rootKeys := hkeysperm.mem_iff.mp ha
      have hla := hlow a hamem
      have hlb : lowerStr b = b := by
        apply hlow
        apply hkeysperm.mem_iff.mp
        assumption
      rw [hla, hlb]
      exact strLt_of_strLe_ne hab.1 hab.2
    · intro kv hkv
      have hkv' : kv ∈ g.m.map (fun kv => (kv.1, List.insertionSort reqLe kv.2)) :=
        hperm.mem_iff.mp hkv
      obtain ⟨kv₀, hkv₀, rfl⟩ := List.mem_map.mp hkv'
      have hedgeperm : ((List.insertionSort reqLe kv₀.2).map ReqPackage.key).Perm
          (kv₀.2.map ReqPackage.key) :=
        (List.perm_insertionSort reqLe kv₀.2).map ReqPackage.key
      have hsorted : List.Sorted reqLe (List.insertionSort reqLe kv₀.2) :=
        List.sorted_insertionSort reqLe kv₀.2
      have hndk : ((List.insertionSort reqLe kv₀.2).map ReqPackage.key).Nodup :=
        hedgeperm.nodup_iff.mpr (hedge kv₀ hkv₀).1
      have hple : ((List.insertionSort reqLe kv₀.2).map ReqPackage.key).Pairwise
          (fun a b => strLe a b = true) := by
        rw [List.pairwise_map]
        exact hsorted
      unfold strictAscFolded
      have hcomb := hple.and (hndk : List.Pairwise (fun a b => a ≠ b) _)
      apply hcomb.imp_of_mem
      intro a b ha hb hab
      have hamem : a ∈ kv₀.2.map ReqPackage.key := hedgeperm.mem_iff.mp ha
      have hbmem : b ∈ kv₀.2.map ReqPackage.key := hedgeperm.mem_iff.mp hb
      obtain ⟨ra, hra, rfl⟩ := List.mem_map.mp hamem
      obtain ⟨rb, hrb, rfl⟩ := List.mem_map.mp hbmem
      rw [(hedge kv₀ hkv₀).2 ra hra, (hedge kv₀ hkv₀).2 rb hrb]
      exact strLt_of_strLe_ne hab.1 hab.2

theorem sort_idempotent_and_sorted_witness :
    strictAscFolded (sampleDAG.sort.rootKeys) ∧
      ∀ kv ∈ sampleDAG.sort.m, strictAscFolded (kv.2.map ReqPackage.key) :=
  sort_idempotent_and_sorted.2 sampleDAG (by decide) (by decide)
    (by
      intro kv hkv
      refine ⟨?_, ?_⟩ <;> revert hkv <;> revert kv <;> decide)

theorem mmInsert_fst {α β : Type} (ka : α → String) (v : α) (b : β) :
    ∀ (m : List (α × List β)), ∀ e ∈ mmInsert ka v b m,
      e.1 = v ∨ ∃ e' ∈ m, e.1 = e'.1 := by
  intro m
  induction m with
  | nil =>
    intro e he
    rw [mmInsert, List.mem_singleton] at he
    exact Or.inl (by rw [he])
  | cons x rest ih =>
    intro e he
    rw [mmInsert] at he
    by_cases hk : (ka x.1 == ka v) = true
    · rw [if_pos hk] at he
      rcases List.mem_cons.mp he with he | he
      · exact Or.inr ⟨x, List.mem_cons_self x rest, by rw [he]⟩
      · exact Or.inr ⟨e, List.mem_cons_of_mem _ he, rfl⟩
    · rw [if_neg hk] at he
      rcases List.mem_cons.mp he with he | he
      · exact Or.inr ⟨x, List.mem_cons_self x rest, by rw [he]⟩
      · rcases ih e he with h | ⟨e', he', hee⟩
        · exact Or.inl h
        · exact Or.inr ⟨e', List.mem_cons_of_mem _ he', hee⟩

theorem mmKeys_mmInsert {α β : Type} (ka : α → String) (v : α) (b : β) :
    ∀ (m : List (α × List β)) (K : String),
      K ∈ mmKeys ka (mmInsert ka v b m) ↔ K ∈ mmKeys ka m ∨ K = ka v := by
  intro m
  induction m with
  | nil =>
    intro K
    simp [mmInsert, mmKeys]
  | cons x rest ih =>
    intro K
    rw [mmInsert]
    by_cases hk : (ka x.1 == ka v) = true
    · rw [if_pos hk]
      rw [beq_iff_eq] at hk
      unfold mmKeys
      simp only [List.map_cons, List.mem_cons]
      constructor
      · intro h
        rcases h with h | h
        · exact Or.inl (Or.inl h)
        · exact Or.inl (Or.inr h)
      · intro h
        rcases h with (h | h) | h
        · exact Or.inl h
        · exact Or.inr h
        · exact Or.inl (by rw [h, ← hk])
    · rw [if_neg hk]
      unfold mmKeys at ih ⊢
      simp only [List.map_cons, List.mem_cons]
      rw [ih K]
      tauto

theorem mmKeys_mmInsert_nodup {α β : Type} (ka : α → String) (v : α) (b : β) :
    ∀ (m : List (α × List β)), (mmKeys ka m).Nodup →
      (mmKeys ka (mmInsert ka v b m)).Nodup := by
  intro m
  induction m with
  | nil =>
    intro _
    simp [mmInsert, mmKeys]
  | cons x rest ih =>
    intro hnd
    unfold mmKeys at hnd
    rw [List.map_cons, List.nodup_cons] at hnd
    rw [mmInsert]
    by_cases hk : (ka x.1 == ka v) = true
    · rw [if_pos hk]
      unfold mmKeys
      rw [List.map_cons, List.nodup_cons]
      exact ⟨hnd.1, hnd.2⟩
    · rw [if_neg hk]
      unfold mmKeys
      rw [List.map_cons, List.nodup_cons]
      constructor
      · intro hmem
        rcases (mmKeys_mmInsert ka v b rest (ka x.1)).mp hmem with h | h
        · exact hnd.1 h
        · rw [beq_iff_eq] at hk
          exact hk h
      · exact ih hnd.2

theorem mUpdate_mem {n : DistPackage} {cldn : List ReqPackage} :
    ∀ {m : List (DistPackage × List ReqPackage)}, ∀ e ∈ mUpdate n cldn m,
      e ∈ m ∨ e = (n, cldn) := by
  intro m
  induction m with
  | nil =>
    intro e he
    rw [mUpdate, List.mem_singleton] at he
    exact Or.inr he
  | cons x rest ih =>
    intro e he
    rw [mUpdate] at he
    by_cases hx : x.1 = n
    · rw [if_pos hx] at he
      rcases List.mem_cons.mp he with he | he
      · exact Or.inr he
      · exact Or.inl (List.mem_cons_of_mem _ he)
    · rw [if_neg hx] at he
      rcases List.mem_cons.mp he with he | he
      · exact Or.inl (he ▸ List.mem_cons_self x rest)
      · rcases ih e he with h | h
        · exact Or.inl (List.mem_cons_of_mem _ h)
        · exact Or.inr h

theorem mUpdate_keys_present {n : DistPackage} {cldn : List ReqPackage} :
    ∀ {m : List (DistPackage × List ReqPackage)}, (∃ e ∈ m, e.1 = n) →
      (mUpdate n cldn m).map (fun e => e.1.key) = m.map (fun e => e.1.key) := by
  intro m
  induction m with
  | nil =>
    intro ⟨e, he, _⟩
    simp at he
  | cons x rest ih =>
    intro ⟨e, he, hen⟩
    rw [mUpdate]
    by_cases hx : x.1 = n
    · rw [if_pos hx, List.map_cons, List.map_cons, hx]
    · rw [if_neg hx, List.map_cons, List.map_cons]
      congr 1
      apply ih
      rcases List.mem_cons.mp he with he | he
      · exact absurd (he ▸ hen) hx
      · exact ⟨e, he, hen⟩

theorem mUpdate_absent {n : DistPackage} {cldn : List ReqPackage} :
    ∀ {m : List (DistPackage × List ReqPackage)}, (∀ e ∈ m, e.1 ≠ n) →
      mUpdate n cldn m = m ++ [(n, cldn)] := by
  intro m
  induction m with
  | nil => intro _; rfl
  | cons x rest ih =>
    intro hne
    rw [mUpdate, if_neg (hne x (List.mem_cons_self x rest)),
      ih (fun e he => hne e (List.mem_cons_of_mem _ he))]
    rfl

theorem foldl_preserve {σ α : Type} (P : σ → Prop) (f : σ → α → σ) :
    ∀ (l : List α) (s : σ), P s → (∀ s' a, a ∈ l → P s' → P (f s' a)) →
      P (l.foldl f s) := by
  intro l
  induction l with
  | nil => intro s h0 _; exact h0
  | cons a l ih =>
    intro s h0 hstep
    rw [List.foldl_cons]
    exact ih (f s a) (hstep s a (List.mem_cons_self a l) h0)
      (fun s' a' ha' => hstep s' a' (List.mem_cons_of_mem _ ha'))

theorem roots_key_inj {g : PackageDAG} (hg : g.rootKeys.Nodup) :
    ∀ x ∈ g.roots, ∀ y ∈ g.roots, x.key = y.key → x = y := by
  have hnd : (g.roots.map DistPackage.key).Nodup := by
    unfold PackageDAG.roots
    rw [List.map_map]
    exact hg
  exact fun x hx y hy h => List.inj_on_of_nodup_map hnd hx hy h

theorem drain_roots_nodup (g : PackageDAG) (excl : List String)
    (hg : g.rootKeys.Nodup) :
    ∀ (stack : List DistPackage) (seen : List String)
      (m : List (DistPackage × List ReqPackage)) (h : ∀ x ∈ stack, x ∈ g.roots),
      (∀ e ∈ m, e.1 ∈ g.roots) → ((m.map (fun e => e.1.key)).Nodup) →
      (∀ e ∈ (drain g excl stack seen m h).2, e.1 ∈ g.roots) ∧
        ((drain g excl stack seen m h).2.map (fun e => e.1.key)).Nodup := by
  intro stack seen m h
  refine drain.induct g excl
    (motive := fun stack seen m h =>
      (∀ e ∈ m, e.1 ∈ g.roots) → ((m.map (fun e => e.1.key)).Nodup) →
      (∀ e ∈ (drain g excl stack seen m h).2, e.1 ∈ g.roots) ∧
        ((drain g excl stack seen m h).2.map (fun e => e.1.key)).Nodup)
    ?_ ?_ stack seen m h
  · intro seen m hx _ hm hnd
    rw [drain]
    exact ⟨hm, hnd⟩
  · intro n rest seen m h
    intro cldn m2 seen2
    intro ha ih hm hnd
    rw [drain]
    have h1 : ∀ e ∈ mUpdate n (childList g excl n) m, e.1 ∈ g.roots := by
      intro e he
      rcases mUpdate_mem e he with he | he
      · exact hm e he
      · rw [he]
        exact h n (List.mem_cons_self n rest)
    have h2 : ((mUpdate n (childList g excl n) m).map (fun e => e.1.key)).Nodup := by
      by_cases hx : ∃ e ∈ m, e.1 = n
      · rw [mUpdate_keys_present hx]
        exact hnd
      · push_neg at hx
        rw [mUpdate_absent hx, List.map_append, List.nodup_append]
        refine ⟨hnd, by simp, ?_⟩
        intro K hK hK'
        simp only [List.map_cons, List.map_nil, List.mem_singleton] at hK'
        obtain ⟨e, he, rfl⟩ := List.mem_map.mp hK
        have : e.1 = n := roots_key_inj hg e.1 (hm e he) n
          (h n (List.mem_cons_self n rest)) hK'
        exact hx e he this
    exact ih h1 h2

theorem revInner_keys (k : DistPackage) :
    ∀ (vs : List ReqPackage) (m : List (ReqPackage × List DistPackage)) (K : String),
      (K ∈ mmKeys ReqPackage.key (vs.foldl
        (fun m v => mmInsert ReqPackage.key v (k.as_parent_of (some v)) m) m)
      ↔ K ∈ mmKeys ReqPackage.key m ∨ K ∈ vs.map ReqPackage.key) := by
  intro vs
  induction vs with
  | nil => intro m K; simp
  | cons v vs ih =>
    intro m K
    rw [List.foldl_cons, ih, mmKeys_mmInsert]
    simp only [List.map_cons, List.mem_cons]
    tauto

theorem revInner_nodup (k : DistPackage) :
    ∀ (vs : List ReqPackage) (m : List (ReqPackage × List DistPackage)),
      (mmKeys ReqPackage.key m).Nodup →
      (mmKeys ReqPackage.key (vs.foldl
        (fun m v => mmInsert ReqPackage.key v (k.as_parent_of (some v)) m) m)).Nodup := by
  intro vs
  induction vs with
  | nil => intro m h; exact h
  | cons v vs ih =>
    intro m h
    rw [List.foldl_cons]
    exact ih _ (mmKeys_mmInsert_nodup _ _ _ m h)

theorem revFold_keys_nodup (ck : List String) :
    ∀ (l : List (DistPackage × List ReqPackage))
      (m₀ : List (ReqPackage × List DistPackage)),
      (mmKeys ReqPackage.key m₀).Nodup →
      (∀ K ∈ mmKeys ReqPackage.key m₀, K ∈ ck ∨ K ∉ l.map (fun kv => kv.1.key)) →
      (∀ kv ∈ l, ∀ v ∈ kv.2, v.key ∈ ck) →
      ((l.map (fun kv => kv.1.key)).Nodup) →
      (mmKeys ReqPackage.key (l.foldl (revStep ck) m₀)).Nodup := by
  intro l
  induction l with
  | nil => intro m₀ h _ _ _; exact h
  | cons kv l ih =>
    intro m₀ hnd₀ hm₀ hck hlk
    rw [List.map_cons, List.nodup_cons] at hlk
    rw [List.foldl_cons]
    have hinner_nd : (mmKeys ReqPackage.key (kv.2.foldl
        (fun m v => mmInsert ReqPackage.key v (kv.1.as_parent_of (some v)) m) m₀)).Nodup :=
      revInner_nodup kv.1 kv.2 m₀ hnd₀
    have hinner_keys := revInner_keys kv.1 kv.2 m₀
    have hstep_keys : ∀ K ∈ mmKeys ReqPackage.key (revStep ck m₀ kv),
        (K ∈ mmKeys ReqPackage.key m₀ ∨ K ∈ kv.2.map ReqPackage.key) ∨
          K = kv.1.key := by
      intro K hK
      unfold revStep at hK
      by_cases hkc : kv.1.key ∈ ck
      · rw [if_pos hkc] at hK
        exact Or.inl ((hinner_keys K).mp hK)
      · rw [if_neg hkc] at hK
        unfold mmKeys at hK
        rw [List.map_append] at hK
        rcases List.mem_append.mp hK with hK | hK
        · exact Or.inl ((hinner_keys K).mp hK)
        · simp only [List.map_cons, List.map_nil, List.mem_singleton] at hK
          exact Or.inr hK
    have hstep_nd : (mmKeys ReqPackage.key (revStep ck m₀ kv)).Nodup := by
      unfold revStep
      by_cases hkc : kv.1.key ∈ ck
      · rw [if_pos hkc]
        exact hinner_nd
      · rw [if_neg hkc]
        unfold mmKeys
        rw [List.map_append, List.nodup_append]
        refine ⟨hinner_nd, by simp, ?_⟩
        intro K hK hK'
        simp only [List.map_cons, List.map_nil, List.mem_singleton] at hK'
        have hKk : K = kv.1.key := hK'
        rcases (hinner_keys K).mp hK with h | h
        · rcases hm₀ K h with h' | h'
          · rw [hKk] at h'
            exact hkc h'
          · apply h'
            rw [List.map_cons, hKk]
            exact List.mem_cons_self _ _
        · obtain ⟨v, hv, hveq⟩ := List.mem_map.mp h
          apply hkc
          rw [← hKk, ← hveq]
          exact hck kv (List.mem_cons_self kv l) v hv
    apply ih (revStep ck m₀ kv) hstep_nd
    · intro K hK
      rcases hstep_keys K hK with (h | h) | h
      · rcases hm₀ K h with h' | h'
        · exact Or.inl h'
        · refine Or.inr (fun hc => h' ?_)
          rw [List.map_cons]
          exact List.mem_cons_of_mem _ hc
      · obtain ⟨v, hv, hveq⟩ := List.mem_map.mp h
        refine Or.inl ?_
        rw [← hveq]
        exact hck kv (List.mem_cons_self kv l) v hv
      · rw [h]
        exact Or.inr hlk.1
    · exact fun kv' h => hck kv' (List.mem_cons_of_mem _ h)
    · exact hlk.2

theorem from_pkgs_rootKeys (pkgs : List PkgRecord) :
    (PackageDAG.from_pkgs pkgs).rootKeys = pkgs.map PkgRecord.key := by
  simp only [PackageDAG.from_pkgs, PackageDAG.rootKeys]
  rw [List.map_map]
  apply List.map_congr_left
  intro p _
  rfl

theorem filter_rootKeys_nodup {g : PackageDAG} {incl excl : Option (List String)}
    {g' : PackageDAG} (hg : g.rootKeys.Nodup) (h : g.filter incl excl = some g') :
    g'.rootKeys.Nodup := by
  unfold PackageDAG.filter at h
  by_cases h0 : incl = none ∧ excl = none
  · rw [if_pos h0] at h
    injection h with h
    rw [← h]
    exact hg
  · rw [if_neg h0] at h
    by_cases hov : filterOverlap (normIncl incl) (normExcl excl) = true
    · rw [if_pos hov] at h
      exact absurd h (by simp)
    · rw [if_neg hov] at h
      injection h with h
      rw [← h]
      exact (foldl_preserve
        (fun st => (∀ e ∈ st.2, e.1 ∈ g.roots) ∧
          ((st.2.map (fun e => e.1.key)).Nodup))
        (fun st kv => filterStep g (normIncl incl) (normExcl excl) st kv.1.1
          (List.mem_map_of_mem Prod.fst kv.2))
        g.m.attach ([], []) ⟨by simp, by simp⟩
        (by
          intro st kv _ hP
          simp only [filterStep]
          by_cases he : kv.1.1.key ∈ normExcl excl
          · rw [if_pos he]
            exact hP
          · rw [if_neg he]
            by_cases hi : normIncl incl = none ∨ kv.1.1.key ∈ (normIncl incl).getD []
            · rw [if_pos hi]
              exact drain_roots_nodup g (normExcl excl) hg _ _ _ _ hP.1 hP.2
            · rw [if_neg hi]
              exact hP)).2

theorem reverse_rootKeys_nodup (g : PackageDAG) (hg : g.rootKeys.Nodup) :
    g.reverse.rootKeys.Nodup := by
  show (mmKeys ReqPackage.key
    (g.m.foldl (revStep ((g.m.flatMap Prod.snd).map (fun r => r.key))) [])).Nodup
  apply revFold_keys_nodup
  · simp [mmKeys]
  · intro K hK
    simp [mmKeys] at hK
  · intro kv hkv v hv
    exact List.mem_map_of_mem _ (List.mem_flatMap.mpr ⟨kv, hkv, hv⟩)
  · exact hg

theorem sort_rootKeys_nodup (g : PackageDAG) (hg : g.rootKeys.Nodup) :
    g.sort.rootKeys.Nodup := by
  have hperm : (sorted_tree g.m).Perm
      (g.m.map (fun kv => (kv.1, List.insertionSort reqLe kv.2))) :=
    List.perm_insertionSort entryLe _
  have hkeysperm : ((sorted_tree g.m).map (fun e => e.1.key)).Perm
      (g.m.map (fun e => e.1.key)) := by
    have h1 := hperm.map (fun e => e.1.key)
    rwa [List.map_map] at h1
  exact hkeysperm.nodup_iff.mpr hg

/-- C8: root-key uniqueness (node identity by key, not object identity) is
established by construction and preserved by every graph operation: a graph
built by `from_pkgs` from records with pairwise-distinct keys has
pairwise-distinct root keys, and `filter`, `reverse` (which deduplicates
encountered nodes by key) and `sort` all preserve root-key uniqueness. -/
theorem node_identity_by_key :
    (∀ pkgs : List PkgRecord, (pkgs.map PkgRecord.key).Nodup →
      (PackageDAG.from_pkgs pkgs).rootKeys.Nodup) ∧
    (∀ (g : PackageDAG) (incl excl : Option (List String)) (g' : PackageDAG),
      g.rootKeys.Nodup → g.filter incl excl = some g' → g'.rootKeys.Nodup) ∧
    (∀ g : PackageDAG, g.rootKeys.Nodup → g.reverse.rootKeys.Nodup) ∧
    (∀ g : PackageDAG, g.rootKeys.Nodup → g.sort.rootKeys.Nodup) :=
  ⟨fun pkgs h => (from_pkgs_rootKeys pkgs).symm ▸ h,
   fun _ _ _ _ hg h => filter_rootKeys_nodup hg h,
   fun _ hg => reverse_rootKeys_nodup _ hg,
   fun _ hg => sort_rootKeys_nodup _ hg⟩

theorem node_identity_by_key_witness :
    cycleDAG.rootKeys.Nodup ∧ cycleDAG.reverse.rootKeys.Nodup :=
  ⟨by decide, node_identity_by_key.2.2.1 cycleDAG (by decide)⟩

theorem drain_sound (g : PackageDAG) (excl : List String)
    (incl' : Option (List String)) :
    ∀ (stack : List DistPackage) (seen : List String)
      (m : List (DistPackage × List ReqPackage)) (h : ∀ x ∈ stack, x ∈ g.roots),
      (∀ x ∈ stack, (∃ s, IsSeed g incl' excl s ∧ Reaches g excl s x) ∧
        x.key ∉ excl) →
      (∀ e ∈ m, ((∃ s, IsSeed g incl' excl s ∧ Reaches g excl s e.1) ∧
        e.1.key ∉ excl) ∧ ∀ c ∈ e.2, c.key ∉ excl) →
      ∀ e ∈ (drain g excl stack seen m h).2,
        ((∃ s, IsSeed g incl' excl s ∧ Reaches g excl s e.1) ∧
          e.1.key ∉ excl) ∧ ∀ c ∈ e.2, c.key ∉ excl := by
  intro stack seen m h
  refine drain.induct g excl (motive := fun stack seen m h =>
      (∀ x ∈ stack, (∃ s, IsSeed g incl' excl s ∧ Reaches g excl s x) ∧
        x.key ∉ excl) →
      (∀ e ∈ m, ((∃ s, IsSeed g incl' excl s ∧ Reaches g excl s e.1) ∧
        e.1.key ∉ excl) ∧ ∀ c ∈ e.2, c.key ∉ excl) →
      ∀ e ∈ (drain g excl stack seen m h).2,
        ((∃ s, IsSeed g incl' excl s ∧ Reaches g excl s e.1) ∧
          e.1.key ∉ excl) ∧ ∀ c ∈ e.2, c.key ∉ excl) ?_ ?_ stack seen m h
  · intro seen m _ _ _ hm
    rw [drain]
    exact hm
  · intro n rest seen m h
    intro cldn m2 seen2
    intro ha ih hstack hm
    rw [drain]
    have hn := hstack n (List.mem_cons_self n rest)
    have h1 : ∀ x ∈ (pushList g (insertKey n.key seen)
        (childList g excl n)).reverse ++ rest,
        (∃ s, IsSeed g incl' excl s ∧ Reaches g excl s x) ∧ x.key ∉ excl := by
      intro x hx
      rcases List.mem_append.mp hx with hx | hx
      · rw [List.mem_reverse] at hx
        obtain ⟨c, hc, hcx⟩ := List.mem_filterMap.mp hx
        have hcf := List.mem_filter.mp hc
        have hcc := List.mem_filter.mp hcf.1
        have hcex : c.key ∉ excl := by
          have := hcc.2
          rwa [decide_eq_true_eq] at this
        have hxk : x.key = c.key := by
          have := List.find?_some hcx
          simpa using this
        obtain ⟨s, hs, hreach⟩ := hn.1
        refine ⟨⟨s, hs, Reaches.step hreach hcc.1 hcex hcx⟩, ?_⟩
        rw [hxk]
        exact hcex
      · exact hstack x (List.mem_cons_of_mem _ hx)
    have h2 : ∀ e ∈ mUpdate n (childList g excl n) m,
        ((∃ s, IsSeed g incl' excl s ∧ Reaches g excl s e.1) ∧
          e.1.key ∉ excl) ∧ ∀ c ∈ e.2, c.key ∉ excl := by
      intro e he
      rcases mUpdate_mem e he with he | he
      · exact hm e he
      · rw [he]
        refine ⟨hn, ?_⟩
        intro c hc
        have := (List.mem_filter.mp hc).2
        rwa [decide_eq_true_eq] at this
    exact ih h1 h2

/-- C3: every root of the filtered graph is reachable in the source graph
from a traversal seed (a non-excluded root passing the include filter) along
edges whose target keys avoid the normalised exclude set, and no excluded
key occurs in the result, either as a root key or as an edge-target key. -/
theorem filter_sound (g : PackageDAG) (incl excl : Option (List String))
    (g' : PackageDAG) (h : g.filter incl excl = some g') :
    ∀ e ∈ g'.m,
      (∃ s, IsSeed g (normIncl incl) (normExcl excl) s ∧
        Reaches g (normExcl excl) s e.1) ∧
      e.1.key ∉ normExcl excl ∧ ∀ c ∈ e.2, c.key ∉ normExcl excl := by
  unfold PackageDAG.filter at h
  by_cases h0 : incl = none ∧ excl = none
  · rw [if_pos h0] at h
    injection h with h
    obtain ⟨ha, hb⟩ := h0
    subst ha
    subst hb
    subst h
    intro e he
    have hroot : e.1 ∈ g.roots := List.mem_map_of_mem Prod.fst he
    refine ⟨⟨e.1, ⟨hroot, ?_, Or.inl rfl⟩, Reaches.refl e.1⟩, ?_, ?_⟩
    · simp [normExcl]
    · simp [normExcl]
    · intro c _
      simp [normExcl]
  · rw [if_neg h0] at h
    by_cases hov : filterOverlap (normIncl incl) (normExcl excl) = true
    · rw [if_pos hov] at h
      exact absurd h (by simp)
    · rw [if_neg hov] at h
      injection h with h
      rw [← h]
      intro e he
      have := (foldl_preserve
        (fun st => ∀ e ∈ st.2,
          ((∃ s, IsSeed g (normIncl incl) (normExcl excl) s ∧
            Reaches g (normExcl excl) s e.1) ∧ e.1.key ∉ normExcl excl) ∧
          ∀ c ∈ e.2, c.key ∉ normExcl excl)
        (fun st kv => filterStep g (normIncl incl) (normExcl excl) st kv.1.1
          (List.mem_map_of_mem Prod.fst kv.2))
        g.m.attach ([], []) (by simp)
        (by
          intro st kv _ hP
          simp only [filterStep]
          by_cases he' : kv.1.1.key ∈ normExcl excl
          · rw [if_pos he']
            exact hP
          · rw [if_neg he']
            by_cases hi : normIncl incl = none ∨
                kv.1.1.key ∈ (normIncl incl).getD []
            · rw [if_pos hi]
              apply drain_sound g (normExcl excl) (normIncl incl)
              · intro x hx
                rw [List.mem_singleton] at hx
                subst hx
                exact ⟨⟨kv.1.1, ⟨List.mem_map_of_mem Prod.fst kv.2, he', hi⟩,
                  Reaches.refl kv.1.1⟩, he'⟩
              · exact hP
            · rw [if_neg hi]
              exact hP)) e he
      obtain ⟨⟨hreach, hkey⟩, hedges⟩ := this
      exact ⟨hreach, hkey, hedges⟩

theorem filter_sound_witness :
    sampleDAG.filter none none = some sampleDAG ∧
      ((distA, [reqB]) : DistPackage × List ReqPackage) ∈ sampleDAG.m ∧
      ((∃ s, IsSeed sampleDAG (normIncl none) (normExcl none) s ∧
        Reaches sampleDAG (normExcl none) s distA) ∧
      DistPackage.key distA ∉ normExcl none ∧
        ∀ c ∈ [reqB], ReqPackage.key c ∉ normExcl none) :=
  ⟨rfl, by decide,
   filter_sound sampleDAG none none sampleDAG rfl (distA, [reqB]) (by decide)⟩

theorem mmGet_nil {α β : Type} (ka : α → String) (K : String) :
    mmGet ka ([] : List (α × List β)) K = [] := rfl

theorem mmGet_cons {α β : Type} (ka : α → String) (x : α × List β)
    (m : List (α × List β)) (K : String) :
    mmGet ka (x :: m) K = if ka x.1 == K then x.2 else mmGet ka m K := by
  unfold mmGet
  rw [List.find?_cons]
  by_cases h : (ka x.1 == K) = true
  · rw [h]
    simp
  · rw [Bool.not_eq_true] at h
    rw [h]
    simp [h]

theorem mmGet_mmInsert {α β : Type} (ka : α → String) (v : α) (b : β) :
    ∀ (m : List (α × List β)) (K : String),
      mmGet ka (mmInsert ka v b m) K
        = mmGet ka m K ++ (if ka v == K then [b] else []) := by
  intro m
  induction m with
  | nil =>
    intro K
    by_cases h : ka v = K
    · simp [mmInsert, mmGet_cons, mmGet_nil, h]
    · simp [mmInsert, mmGet_cons, mmGet_nil, h]
  | cons x rest ih =>
    intro K
    by_cases h1 : ka x.1 = ka v
    · by_cases h2 : ka x.1 = K
      · have hv : ka v = K := by rw [← h1]; exact h2
        simp [mmInsert, mmGet_cons, h1, h2, hv]
      · have hv : ¬ ka v = K := by rw [← h1]; exact h2
        simp [mmInsert, mmGet_cons, h1, h2, hv]
    · by_cases h2 : ka x.1 = K
      · by_cases hv : ka v = K
        · exact absurd (by rw [h2, hv] : ka x.1 = ka v) h1
        · have hv' : ¬ K = ka v := fun hh => hv hh.symm
          simp [mmInsert, mmGet_cons, h1, h2, hv, hv']
      · by_cases hv : ka v = K
        · simp [mmInsert, mmGet_cons, h1, h2, hv, ih]
        · simp [mmInsert, mmGet_cons, h1, h2, hv, ih]

theorem mmGet_append_nil_entry {α β : Type} (ka : α → String) (r : α) :
    ∀ (m : List (α × List β)) (K : String),
      mmGet ka (m ++ [(r, ([] : List β))]) K = mmGet ka m K := by
  intro m
  induction m with
  | nil =>
    intro K
    by_cases h : ka r = K
    · simp [mmGet_cons, mmGet_nil, h]
    · simp [mmGet_cons, mmGet_nil, h]
  | cons x rest ih =>
    intro K
    rw [List.cons_append, mmGet_cons, mmGet_cons, ih]

theorem mm_entry_get {α β : Type} (ka : α → String) :
    ∀ {m : List (α × List β)}, (mmKeys ka m).Nodup →
      ∀ e ∈ m, mmGet ka m (ka e.1) = e.2 := by
  intro m
  induction m with
  | nil =>
    intro _ e he
    simp at he
  | cons x rest ih =>
    intro hnd e he
    unfold mmKeys at hnd
    rw [List.map_cons, List.nodup_cons] at hnd
    rcases List.mem_cons.mp he with he | he
    · subst he
      rw [mmGet_cons]
      simp
    · rw [mmGet_cons]
      have hne : ¬ ((ka x.1 == ka e.1) = true) := by
        rw [beq_iff_eq]
        intro hk
        exact hnd.1 (hk ▸ List.mem_map_of_mem (fun e => ka e.1) he)
      rw [if_neg hne]
      exact ih hnd.2 e he

theorem as_parent_of_key (d : DistPackage) (r : Option ReqPackage) :
    (d.as_parent_of r).key = d.key := by
  unfold DistPackage.as_parent_of
  by_cases h : r = none ∧ d.req = none
  · rw [if_pos h]
  · rw [if_neg h]
    rfl

theorem as_parent_of_some (d : DistPackage) (r : ReqPackage) :
    d.as_parent_of (some r) = ⟨d.base, some r⟩ := by
  unfold DistPackage.as_parent_of
  rw [if_neg]
  intro h
  exact Option.noConfusion h.1

theorem distMatches_exists {v : ReqPackage} (h : distMatches v = true) :
    ∃ b, v.dist = some b ∧ b.key = v.key := by
  unfold distMatches at h
  cases hd : v.dist with
  | none => rw [hd] at h; exact absurd h (by simp)
  | some b =>
    rw [hd] at h
    exact ⟨b, rfl, by rwa [beq_iff_eq] at h⟩

theorem distMatches_isSome {v : ReqPackage} (h : distMatches v = true) :
    v.dist.isSome = true := by
  obtain ⟨b, hb, _⟩ := distMatches_exists h
  rw [hb]
  rfl

theorem mmInsert_values {α β : Type} (ka : α → String) (v : α) (b : β) :
    ∀ (m : List (α × List β)) (x : β),
      (x ∈ (mmInsert ka v b m).flatMap Prod.snd ↔ x ∈ m.flatMap Prod.snd ∨ x = b) := by
  intro m
  induction m with
  | nil =>
    intro x
    simp [mmInsert]
  | cons e rest ih =>
    intro x
    rw [mmInsert]
    by_cases hk : (ka e.1 == ka v) = true
    · rw [if_pos hk]
      simp only [List.flatMap_cons, List.mem_append, List.mem_singleton]
      tauto
    · rw [if_neg hk]
      simp only [List.flatMap_cons, List.mem_append, ih]
      tauto

theorem revInner_get (k : DistPackage) :
    ∀ (vs : List ReqPackage) (m : List (ReqPackage × List DistPackage)) (K : String),
      mmGet ReqPackage.key (vs.foldl
        (fun m v => mmInsert ReqPackage.key v (k.as_parent_of (some v)) m) m) K
      = mmGet ReqPackage.key m K
        ++ (vs.filter (fun v => v.key == K)).map (fun v => k.as_parent_of (some v)) := by
  intro vs
  induction vs with
  | nil =>
    intro m K
    simp
  | cons v vs ih =>
    intro m K
    rw [List.foldl_cons, ih, mmGet_mmInsert]
    by_cases hc : (v.key == K) = true
    · simp [List.filter_cons, hc]
    · simp [List.filter_cons, hc]

theorem revInner_values (k : DistPackage) :
    ∀ (vs : List ReqPackage) (m : List (ReqPackage × List DistPackage)) (x : DistPackage),
      (x ∈ (vs.foldl
          (fun m v => mmInsert ReqPackage.key v (k.as_parent_of (some v)) m) m).flatMap Prod.snd
        ↔ x ∈ m.flatMap Prod.snd ∨ x ∈ vs.map (fun v => k.as_parent_of (some v))) := by
  intro vs
  induction vs with
  | nil =>
    intro m x
    simp
  | cons v vs ih =>
    intro m x
    rw [List.foldl_cons, ih, mmInsert_values]
    simp only [List.map_cons, List.mem_cons]
    tauto

theorem revInner_fst (k : DistPackage) :
    ∀ (vs : List ReqPackage) (m : List (ReqPackage × List DistPackage)),
      ∀ e ∈ vs.foldl (fun m v => mmInsert ReqPackage.key v (k.as_parent_of (some v)) m) m,
        (∃ v ∈ vs, e.1 = v) ∨ ∃ e' ∈ m, e.1 = e'.1 := by
  intro vs
  induction vs with
  | nil =>
    intro m e he
    exact Or.inr ⟨e, he, rfl⟩
  | cons v vs ih =>
    intro m e he
    rw [List.foldl_cons] at he
    rcases ih _ e he with ⟨v', hv', hev⟩ | ⟨e', he', hee⟩
    · exact Or.inl ⟨v', List.mem_cons_of_mem _ hv', hev⟩
    · rcases mmInsert_fst ReqPackage.key v (k.as_parent_of (some v)) m e' he' with h | ⟨e'', he'', h⟩
      · exact Or.inl ⟨v, List.mem_cons_self v vs, hee.trans h⟩
      · exact Or.inr ⟨e'', he'', hee.trans h⟩

theorem revFold_get (ck : List String) :
    ∀ (L : List (DistPackage × List ReqPackage))
      (acc : List (ReqPackage × List DistPackage)) (K : String),
      mmGet ReqPackage.key (L.foldl (revStep ck) acc) K
        = mmGet ReqPackage.key acc K
          ++ L.flatMap (fun kv => (kv.2.filter (fun v => v.key == K)).map
              (fun v => kv.1.as_parent_of (some v))) := by
  intro L
  induction L with
  | nil =>
    intro acc K
    simp
  | cons kv L ih =>
    intro acc K
    rw [List.foldl_cons, ih]
    have hstep : mmGet ReqPackage.key (revStep ck acc kv) K
        = mmGet ReqPackage.key acc K ++ (kv.2.filter (fun v => v.key == K)).map
            (fun v => kv.1.as_parent_of (some v)) := by
      simp only [revStep]
      by_cases hkc : kv.1.key ∈ ck
      · rw [if_pos hkc, revInner_get]
      · rw [if_neg hkc, mmGet_append_nil_entry, revInner_get]
    rw [hstep, List.flatMap_cons, List.append_assoc]

theorem revFold_values (ck : List String) :
    ∀ (L : List (DistPackage × List ReqPackage))
      (acc : List (ReqPackage × List DistPackage)) (x : DistPackage),
      (x ∈ (L.foldl (revStep ck) acc).flatMap Prod.snd ↔
        x ∈ acc.flatMap Prod.snd
        ∨ x ∈ L.flatMap (fun kv => kv.2.map (fun v => kv.1.as_parent_of (some v)))) := by
  intro L
  induction L with
  | nil =>
    intro acc x
    simp
  | cons kv L ih =>
    intro acc x
    rw [List.foldl_cons, ih]
    have hstep : x ∈ (revStep ck acc kv).flatMap Prod.snd ↔
        x ∈ acc.flatMap Prod.snd ∨ x ∈ kv.2.map (fun v => kv.1.as_parent_of (some v)) := by
      simp only [revStep]
      by_cases hkc : kv.1.key ∈ ck
      · rw [if_pos hkc, revInner_values]
      · rw [if_neg hkc]
        rw [List.flatMap_append, List.mem_append]
        simp only [List.flatMap_cons, List.flatMap_nil, List.append_nil,
          List.not_mem_nil, or_false]
        rw [revInner_values]
    rw [hstep, List.flatMap_cons, List.mem_append]
    tauto

theorem revFold_keys (ck : List String) :
    ∀ (L : List (DistPackage × List ReqPackage))
      (acc : List (ReqPackage × List DistPackage)) (K : String),
      (K ∈ mmKeys ReqPackage.key (L.foldl (revStep ck) acc) ↔
        K ∈ mmKeys ReqPackage.key acc
        ∨ K ∈ (L.flatMap Prod.snd).map (fun r => r.key)
        ∨ ∃ kv ∈ L, kv.1.key = K ∧ kv.1.key ∉ ck) := by
  intro L
  induction L with
  | nil =>
    intro acc K
    simp
  | cons kv L ih =>
    intro acc K
    rw [List.foldl_cons, ih]
    have hstep : K ∈ mmKeys ReqPackage.key (revStep ck acc kv) ↔
        (K ∈ mmKeys ReqPackage.key acc ∨ K ∈ kv.2.map (fun r => r.key))
        ∨ (kv.1.key = K ∧ kv.1.key ∉ ck) := by
      simp only [revStep]
      by_cases hkc : kv.1.key ∈ ck
      · rw [if_pos hkc, revInner_keys]
        constructor
        · intro h
          exact Or.inl h
        · intro h
          rcases h with h | h
          · exact h
          · exact absurd hkc h.2
      · rw [if_neg hkc]
        unfold mmKeys
        rw [List.map_append, List.mem_append]
        constructor
        · intro h
          rcases h with h | h
          · exact Or.inl ((revInner_keys kv.1 kv.2 acc K).mp h)
          · simp only [List.map_cons, List.map_nil, List.mem_singleton] at h
            exact Or.inr ⟨h.symm, hkc⟩
        · intro h
          rcases h with h | h
          · exact Or.inl ((revInner_keys kv.1 kv.2 acc K).mpr h)
          · refine Or.inr ?_
            simp only [List.map_cons, List.map_nil, List.mem_singleton]
            exact h.1.symm
    rw [hstep, List.flatMap_cons, List.map_append, List.mem_append]
    constructor
    · intro h
      rcases h with ((h | h) | h) | h | h
      · exact Or.inl h
      · exact Or.inr (Or.inl (Or.inl h))
      · exact Or.inr (Or.inr ⟨kv, List.mem_cons_self kv L, h⟩)
      · exact Or.inr (Or.inl (Or.inr h))
      · obtain ⟨kv', hkv', h⟩ := h
        exact Or.inr (Or.inr ⟨kv', List.mem_cons_of_mem _ hkv', h⟩)
    · intro h
      rcases h with h | h | h
      · exact Or.inl (Or.inl (Or.inl h))
      · rcases h with h | h
        · exact Or.inl (Or.inl (Or.inr h))
        · exact Or.inr (Or.inl h)
      · obtain ⟨kv', hkv', h⟩ := h
        rcases List.mem_cons.mp hkv' with rfl | hkv'
        · exact Or.inl (Or.inr h)
        · exact Or.inr (Or.inr ⟨kv', hkv', h⟩)

theorem rev_entries_dist (g : PackageDAG)
    (hw : ∀ kv ∈ g.m, ∀ v ∈ kv.2, distMatches v = true) :
    ∀ e ∈ g.reverse.m, distMatches e.1 = true := by
  show ∀ e : ReqPackage × List DistPackage,
    e ∈ g.m.foldl (revStep ((g.m.flatMap Prod.snd).map (fun r => r.key))) [] →
    distMatches e.1 = true
  refine foldl_preserve
    (fun m : List (ReqPackage × List DistPackage) => ∀ e ∈ m, distMatches e.1 = true)
    _ g.m [] (by simp) ?_
  intro m kv hkv hP e he
  simp only [revStep] at he
  by_cases hkc : kv.1.key ∈ (g.m.flatMap Prod.snd).map (fun r => r.key)
  · rw [if_pos hkc] at he
    rcases revInner_fst kv.1 kv.2 m e he with ⟨v, hv, hev⟩ | ⟨e', he', hee⟩
    · rw [hev]
      exact hw kv hkv v hv
    · rw [hee]
      exact hP e' he'
  · rw [if_neg hkc] at he
    rcases List.mem_append.mp he with he | he
    · rcases revInner_fst kv.1 kv.2 m e he with ⟨v, hv, hev⟩ | ⟨e', he', hee⟩
      · rw [hev]
        exact hw kv hkv v hv
      · rw [hee]
        exact hP e' he'
    · rw [List.mem_singleton] at he
      rw [he]
      simp [distMatches, DistPackage.as_requirement, DistPackage.key]

theorem revRevInner_get (q : ReqPackage) :
    ∀ (vs : List DistPackage) (m : List (DistPackage × List ReqPackage)) (K : String),
      mmGet DistPackage.key (vs.foldl
        (fun m v => mmInsert DistPackage.key (v.as_parent_of none) q m) m) K
      = mmGet DistPackage.key m K
        ++ (vs.filter (fun v => (v.as_parent_of none).key == K)).map (fun _ => q) := by
  intro vs
  induction vs with
  | nil =>
    intro m K
    simp
  | cons v vs ih =>
    intro m K
    rw [List.foldl_cons, ih, mmGet_mmInsert]
    by_cases hc : ((v.as_parent_of none).key == K) = true
    · simp [List.filter_cons, hc]
    · simp [List.filter_cons, hc]

theorem revRevInner_keys (q : ReqPackage) :
    ∀ (vs : List DistPackage) (m : List (DistPackage × List ReqPackage)) (K : String),
      (K ∈ mmKeys DistPackage.key (vs.foldl
        (fun m v => mmInsert DistPackage.key (v.as_parent_of none) q m) m)
      ↔ K ∈ mmKeys DistPackage.key m
        ∨ K ∈ vs.map (fun v => (v.as_parent_of none).key)) := by
  intro vs
  induction vs with
  | nil =>
    intro m K
    simp
  | cons v vs ih =>
    intro m K
    rw [List.foldl_cons, ih, mmKeys_mmInsert]
    simp only [List.map_cons, List.mem_cons]
    tauto

theorem revRevInner_nodup (q : ReqPackage) :
    ∀ (vs : List DistPackage) (m : List (DistPackage × List ReqPackage)),
      (mmKeys DistPackage.key m).Nodup →
      (mmKeys DistPackage.key (vs.foldl
        (fun m v => mmInsert DistPackage.key (v.as_parent_of none) q m) m)).Nodup := by
  intro vs
  induction vs with
  | nil =>
    intro m h
    exact h
  | cons v vs ih =>
    intro m h
    rw [List.foldl_cons]
    exact ih _ (mmKeys_mmInsert_nodup _ _ _ m h)

theorem revRevFold_get (ck : List String) :
    ∀ (L : List (ReqPackage × List DistPackage))
      (acc : List (DistPackage × List ReqPackage)) (K : String),
      mmGet DistPackage.key (L.foldl (revRevStepPure ck) acc) K
        = mmGet DistPackage.key acc K
          ++ L.flatMap (fun kv => (kv.2.filter
              (fun v => (v.as_parent_of none).key == K)).map (fun _ => kv.1)) := by
  intro L
  induction L with
  | nil =>
    intro acc K
    simp
  | cons kv L ih =>
    intro acc K
    rw [List.foldl_cons, ih]
    have hstep : mmGet DistPackage.key (revRevStepPure ck acc kv) K
        = mmGet DistPackage.key acc K ++ (kv.2.filter
            (fun v => (v.as_parent_of none).key == K)).map (fun _ => kv.1) := by
      simp only [revRevStepPure]
      by_cases hkc : kv.1.key ∈ ck
      · rw [if_pos hkc, revRevInner_get]
      · rw [if_neg hkc]
        cases hd : kv.1.dist with
        | none => rw [revRevInner_get]
        | some b => rw [mmGet_append_nil_entry, revRevInner_get]
    rw [hstep, List.flatMap_cons, List.append_assoc]

theorem revRevFold_keys (ck : List String) :
    ∀ (L : List (ReqPackage × List DistPackage))
      (acc : List (DistPackage × List ReqPackage)) (K : String),
      (K ∈ mmKeys DistPackage.key (L.foldl (revRevStepPure ck) acc) ↔
        K ∈ mmKeys DistPackage.key acc
        ∨ K ∈ (L.flatMap Prod.snd).map (fun v => (v.as_parent_of none).key)
        ∨ ∃ kv ∈ L, kv.1.key ∉ ck ∧ ∃ b, kv.1.dist = some b ∧ b.key = K) := by
  intro L
  induction L with
  | nil =>
    intro acc K
    simp
  | cons kv L ih =>
    intro acc K
    rw [List.foldl_cons, ih]
    have hstep : K ∈ mmKeys DistPackage.key (revRevStepPure ck acc kv) ↔
        (K ∈ mmKeys DistPackage.key acc
          ∨ K ∈ kv.2.map (fun v => (v.as_parent_of none).key))
        ∨ (kv.1.key ∉ ck ∧ ∃ b, kv.1.dist = some b ∧ b.key = K) := by
      simp only [revRevStepPure]
      by_cases hkc : kv.1.key ∈ ck
      · rw [if_pos hkc, revRevInner_keys]
        constructor
        · intro h
          exact Or.inl h
        · intro h
          rcases h with h | h
          · exact h
          · exact absurd hkc h.1
      · rw [if_neg hkc]
        cases hd : kv.1.dist with
        | none =>
          rw [revRevInner_keys]
          constructor
          · intro h
            exact Or.inl h
          · intro h
            rcases h with h | ⟨_, b, hb, _⟩
            · exact h
            · exact absurd hb (by simp)
        | some b =>
          unfold mmKeys
          rw [List.map_append, List.mem_append]
          constructor
          · intro h
            rcases h with h | h
            · exact Or.inl ((revRevInner_keys kv.1 kv.2 acc K).mp h)
            · simp only [List.map_cons, List.map_nil, List.mem_singleton] at h
              exact Or.inr ⟨hkc, b, rfl, h.symm⟩
          · intro h
            rcases h with h | ⟨_, b', hb', hbK⟩
            · exact Or.inl ((revRevInner_keys kv.1 kv.2 acc K).mpr h)
            · refine Or.inr ?_
              simp only [List.map_cons, List.map_nil, List.mem_singleton]
              have hbb : b' = b := by
                injection hb' with h
                exact h.symm
              rw [← hbK, hbb]
              rfl
    rw [hstep, List.flatMap_cons, List.map_append, List.mem_append]
    constructor
    · intro h
      rcases h with ((h | h) | h) | h | h
      · exact Or.inl h
      · exact Or.inr (Or.inl (Or.inl h))
      · exact Or.inr (Or.inr ⟨kv, List.mem_cons_self kv L, h⟩)
      · exact Or.inr (Or.inl (Or.inr h))
      · obtain ⟨kv', hkv', h⟩ := h
        exact Or.inr (Or.inr ⟨kv', List.mem_cons_of_mem _ hkv', h⟩)
    · intro h
      rcases h with h | h | h
      · exact Or.inl (Or.inl (Or.inl h))
      · rcases h with h | h
        · exact Or.inl (Or.inl (Or.inr h))
        · exact Or.inr (Or.inl h)
      · obtain ⟨kv', hkv', h⟩ := h
        rcases List.mem_cons.mp hkv' with rfl | hkv'
        · exact Or.inl (Or.inr h)
        · exact Or.inr (Or.inr ⟨kv', hkv', h⟩)

theorem revRevFold_some (ck : List String) :
    ∀ (L : List (ReqPackage × List DistPackage))
      (acc : List (DistPackage × List ReqPackage)),
      (∀ kv ∈ L, kv.1.dist.isSome = true) →
      L.foldlM (revRevStep ck) acc = some (L.foldl (revRevStepPure ck) acc) := by
  intro L
  induction L with
  | nil =>
    intro acc _
    rfl
  | cons kv L ih =>
    intro acc hL
    have hstep : revRevStep ck acc kv = some (revRevStepPure ck acc kv) := by
      simp only [revRevStep, revRevStepPure]
      by_cases hkc : kv.1.key ∈ ck
      · rw [if_pos hkc, if_pos hkc]
      · rw [if_neg hkc, if_neg hkc]
        cases hd : kv.1.dist with
        | none =>
          have := hL kv (List.mem_cons_self kv L)
          rw [hd] at this
          exact absurd this (by simp)
        | some b => rfl
    rw [List.foldlM_cons, hstep, List.foldl_cons]
    show L.foldlM (revRevStep ck) (revRevStepPure ck acc kv) = _
    exact ih _ (fun kv' h => hL kv' (List.mem_cons_of_mem _ h))

theorem revRevFold_keys_nodup (ck : List String) :
    ∀ (l : List (ReqPackage × List DistPackage))
      (m₀ : List (DistPackage × List ReqPackage)),
      (mmKeys DistPackage.key m₀).Nodup →
      (∀ K ∈ mmKeys DistPackage.key m₀, K ∈ ck ∨ K ∉ l.map (fun kv => kv.1.key)) →
      (∀ kv ∈ l, ∀ v ∈ kv.2, (v.as_parent_of none).key ∈ ck) →
      ((l.map (fun kv => kv.1.key)).Nodup) →
      (∀ kv ∈ l, distMatches kv.1 = true) →
      (mmKeys DistPackage.key (l.foldl (revRevStepPure ck) m₀)).Nodup := by
  intro l
  induction l with
  | nil =>
    intro m₀ h _ _ _ _
    exact h
  | cons kv l ih =>
    intro m₀ hnd₀ hm₀ hck hlk hdist
    rw [List.map_cons, List.nodup_cons] at hlk
    rw [List.foldl_cons]
    obtain ⟨b, hb, hbk⟩ := distMatches_exists (hdist kv (List.mem_cons_self kv l))
    have hinner_nd : (mmKeys DistPackage.key (kv.2.foldl
        (fun m v => mmInsert DistPackage.key (v.as_parent_of none) kv.1 m) m₀)).Nodup :=
      revRevInner_nodup kv.1 kv.2 m₀ hnd₀
    have hinner_keys := revRevInner_keys kv.1 kv.2 m₀
    have hstep_keys : ∀ K ∈ mmKeys DistPackage.key (revRevStepPure ck m₀ kv),
        (K ∈ mmKeys DistPackage.key m₀
          ∨ K ∈ kv.2.map (fun v => (v.as_parent_of none).key)) ∨ K = kv.1.key := by
      intro K hK
      simp only [revRevStepPure] at hK
      by_cases hkc : kv.1.key ∈ ck
      · rw [if_pos hkc] at hK
        exact Or.inl ((hinner_keys K).mp hK)
      · rw [if_neg hkc] at hK
        simp only [hb] at hK
        unfold mmKeys at hK
        rw [List.map_append] at hK
        rcases List.mem_append.mp hK with hK | hK
        · exact Or.inl ((hinner_keys K).mp hK)
        · simp only [List.map_cons, List.map_nil, List.mem_singleton] at hK
          refine Or.inr ?_
          rw [hK]
          exact hbk
    have hstep_nd : (mmKeys DistPackage.key (revRevStepPure ck m₀ kv)).Nodup := by
      simp only [revRevStepPure]
      by_cases hkc : kv.1.key ∈ ck
      · rw [if_pos hkc]
        exact hinner_nd
      · rw [if_neg hkc]
        simp only [hb]
        unfold mmKeys
        rw [List.map_append, List.nodup_append]
        refine ⟨hinner_nd, by simp, ?_⟩
        intro K hK hK'
        simp only [List.map_cons, List.map_nil, List.mem_singleton] at hK'
        have hKk : K = kv.1.key := by rw [hK']; exact hbk
        rcases (hinner_keys K).mp hK with h | h
        · rcases hm₀ K h with h' | h'
          · rw [hKk] at h'
            exact hkc h'
          · apply h'
            rw [List.map_cons, hKk]
            exact List.mem_cons_self _ _
        · obtain ⟨v, hv, hveq⟩ := List.mem_map.mp h
          apply hkc
          rw [← hKk, ← hveq]
          exact hck kv (List.mem_cons_self kv l) v hv
    apply ih (revRevStepPure ck m₀ kv) hstep_nd
    · intro K hK
      rcases hstep_keys K hK with (h | h) | h
      · rcases hm₀ K h with h' | h'
        · exact Or.inl h'
        · refine Or.inr (fun hc => h' ?_)
          rw [List.map_cons]
          exact List.mem_cons_of_mem _ hc
      · obtain ⟨v, hv, hveq⟩ := List.mem_map.mp h
        refine Or.inl ?_
        rw [← hveq]
        exact hck kv (List.mem_cons_self kv l) v hv
      · rw [h]
        exact Or.inr hlk.1
    · exact fun kv' h => hck kv' (List.mem_cons_of_mem _ h)
    · exact hlk.2
    · exact fun kv' h => hdist kv' (List.mem_cons_of_mem _ h)

theorem childKeysOf_mem (g : PackageDAG) (K k : String) :
    k ∈ childKeysOf g K ↔ ∃ kv ∈ g.m, kv.1.key = K ∧ ∃ r ∈ kv.2, r.key = k := by
  unfold childKeysOf
  rw [List.mem_flatMap]
  constructor
  · rintro ⟨kv, hkv, hk⟩
    rw [List.mem_filter] at hkv
    obtain ⟨r, hr, hrk⟩ := List.mem_map.mp hk
    exact ⟨kv, hkv.1, by rw [← beq_iff_eq]; exact hkv.2, r, hr, hrk⟩
  · rintro ⟨kv, hkv, hkK, r, hr, hrk⟩
    refine ⟨kv, List.mem_filter.mpr ⟨hkv, by rw [beq_iff_eq]; exact hkK⟩, ?_⟩
    exact List.mem_map.mpr ⟨r, hr, hrk⟩

theorem childKeysOf_eq_mmGet :
    ∀ (m : List (DistPackage × List ReqPackage)),
      (mmKeys DistPackage.key m).Nodup → ∀ K,
      childKeysOf ⟨m⟩ K = (mmGet DistPackage.key m K).map (fun r => r.key) := by
  intro m
  induction m with
  | nil =>
    intro _ K
    rfl
  | cons e rest ih =>
    intro hnd K
    unfold mmKeys at hnd
    rw [List.map_cons, List.nodup_cons] at hnd
    show (((e :: rest).filter (fun kv => kv.1.key == K)).flatMap
      (fun kv => kv.2.map (fun r => r.key))) = _
    rw [List.filter_cons, mmGet_cons]
    by_cases he : (e.1.key == K) = true
    · rw [if_pos he, if_pos he]
      have hrest : rest.filter (fun kv => kv.1.key == K) = [] := by
        rw [List.filter_eq_nil_iff]
        intro kv hkv hkK
        have hkK' : kv.1.key = K := by simpa using hkK
        rw [beq_iff_eq] at he
        apply hnd.1
        rw [← he] at hkK'
        exact List.mem_map.mpr ⟨kv, hkv, hkK'⟩
      rw [List.flatMap_cons, hrest, List.flatMap_nil, List.append_nil]
    · rw [if_neg he, if_neg he]
      exact ih hnd.2 K

/-- C1: the spec's unconditional round-trip law fails (see the
counterexample: a graph with an unresolved dependency makes the second
reversal crash).  Amended: for well-formed graphs — pairwise-distinct root
keys, every edge resolved to an installed package of the same key that is a
root — `ReversedPackageDAG.reverse` after `PackageDAG.reverse` succeeds and
returns a graph with the same set of root keys and, for each root key, the
same set of edge-target keys as the original graph. -/
theorem reverse_roundtrip (g : PackageDAG) (hw : GraphWF g) :
    ∃ g₂ : PackageDAG, g.reverse.reverse = some g₂ ∧
      (∀ K, K ∈ g₂.rootKeys ↔ K ∈ g.rootKeys) ∧
      (∀ K k, k ∈ childKeysOf g₂ K ↔ k ∈ childKeysOf g K) := by
  obtain ⟨hnd, hedge⟩ := hw
  have hdist : ∀ e ∈ g.reverse.m, distMatches e.1 = true :=
    rev_entries_dist g (fun kv hkv v hv => (hedge kv hkv v hv).1)
  have hdist' : ∀ kv ∈ g.reverse.m, kv.1.dist.isSome = true :=
    fun kv hkv => distMatches_isSome (hdist kv hkv)
  have hrev2 : g.reverse.reverse = some ⟨g.reverse.m.foldl
      (revRevStepPure ((g.reverse.m.flatMap Prod.snd).map (fun d => d.key))) []⟩ := by
    show (g.reverse.m.foldlM
      (revRevStep ((g.reverse.m.flatMap Prod.snd).map (fun d => d.key)))
      []).map PackageDAG.mk = _
    rw [revRevFold_some _ _ _ hdist']
    rfl
  have hfun : (fun v : DistPackage => (v.as_parent_of none).key)
      = fun d : DistPackage => d.key :=
    funext (fun v => as_parent_of_key v none)
  have hvals_rev : ∀ x : DistPackage, (x ∈ g.reverse.m.flatMap Prod.snd ↔
      x ∈ g.m.flatMap (fun kv => kv.2.map (fun v => kv.1.as_parent_of (some v)))) := by
    intro x
    show x ∈ (g.m.foldl (revStep ((g.m.flatMap Prod.snd).map (fun r => r.key)))
      []).flatMap Prod.snd ↔ _
    rw [revFold_values]
    simp
  have hkeys_rev : ∀ K, (K ∈ g.reverse.m.map (fun e => e.1.key) ↔
      K ∈ (g.m.flatMap Prod.snd).map (fun r => r.key)
      ∨ ∃ kv ∈ g.m, kv.1.key = K
          ∧ kv.1.key ∉ (g.m.flatMap Prod.snd).map (fun r => r.key)) := by
    intro K
    show K ∈ mmKeys ReqPackage.key
      (g.m.foldl (revStep ((g.m.flatMap Prod.snd).map (fun r => r.key))) []) ↔ _
    rw [revFold_keys]
    simp [mmKeys]
  have hkeys2 : ∀ K, (K ∈ (g.reverse.m.foldl
        (revRevStepPure ((g.reverse.m.flatMap Prod.snd).map (fun d => d.key)))
        []).map (fun e => e.1.key) ↔
      K ∈ (g.reverse.m.flatMap Prod.snd).map (fun d => d.key)
      ∨ ∃ kv ∈ g.reverse.m,
          kv.1.key ∉ (g.reverse.m.flatMap Prod.snd).map (fun d => d.key)
          ∧ ∃ b, kv.1.dist = some b ∧ b.key = K) := by
    intro K
    show K ∈ mmKeys DistPackage.key (g.reverse.m.foldl
      (revRevStepPure ((g.reverse.m.flatMap Prod.snd).map (fun d => d.key))) []) ↔ _
    rw [revRevFold_keys, hfun]
    simp [mmKeys]
  have hgroot : ∀ K', (K' ∈ g.rootKeys ↔ ∃ kv ∈ g.m, kv.1.key = K') := by
    intro K'
    unfold PackageDAG.rootKeys
    exact List.mem_map
  refine ⟨_, hrev2, ?_, ?_⟩
  · -- root keys agree as sets
    intro K
    show K ∈ (g.reverse.m.foldl
      (revRevStepPure ((g.reverse.m.flatMap Prod.snd).map (fun d => d.key)))
      []).map (fun e => e.1.key) ↔ K ∈ g.rootKeys
    rw [hkeys2 K]
    constructor
    · intro h
      rcases h with h | ⟨kv, hkv, hknotck2, b, hb, hbK⟩
      · obtain ⟨x, hx, rfl⟩ := List.mem_map.mp h
        rw [hvals_rev x] at hx
        obtain ⟨kv, hkv, hx2⟩ := List.mem_flatMap.mp hx
        obtain ⟨v, hv, rfl⟩ := List.mem_map.mp hx2
        rw [hgroot]
        exact ⟨kv, hkv, (as_parent_of_key kv.1 (some v)).symm⟩
      · obtain ⟨b', hb', hb'k⟩ := distMatches_exists (hdist kv hkv)
        have hbb : b = b' := by
          rw [hb] at hb'
          exact Option.some.inj hb'
        have hKk : K = kv.1.key := by
          rw [← hbK, hbb]
          exact hb'k
        have hKrev : K ∈ g.reverse.m.map (fun e => e.1.key) := by
          rw [hKk]
          exact List.mem_map_of_mem _ hkv
        rcases (hkeys_rev K).mp hKrev with h | ⟨kv', hkv', hk', _⟩
        · obtain ⟨r, hr, rfl⟩ := List.mem_map.mp h
          obtain ⟨kv'', hkv'', hr2⟩ := List.mem_flatMap.mp hr
          exact (hedge kv'' hkv'' r hr2).2
        · rw [hgroot]
          exact ⟨kv', hkv', hk'⟩
    · intro hK
      obtain ⟨kv, hkv, hkvK⟩ := (hgroot K).mp hK
      by_cases hc2 : K ∈ (g.reverse.m.flatMap Prod.snd).map (fun d => d.key)
      · exact Or.inl hc2
      · refine Or.inr ?_
        have hKrev : K ∈ g.reverse.m.map (fun e => e.1.key) := by
          rw [hkeys_rev]
          by_cases hT : K ∈ (g.m.flatMap Prod.snd).map (fun r => r.key)
          · exact Or.inl hT
          · refine Or.inr ⟨kv, hkv, hkvK, ?_⟩
            rw [hkvK]
            exact hT
        obtain ⟨e, he, heK⟩ := List.mem_map.mp hKrev
        obtain ⟨b, hb, hbk⟩ := distMatches_exists (hdist e he)
        refine ⟨e, he, ?_, b, hb, by rw [hbk, heK]⟩
        rw [heK]
        exact hc2
  · -- per-root edge-target keys agree as sets
    intro K k
    have hnd_rev : (mmKeys ReqPackage.key g.reverse.m).Nodup :=
      reverse_rootKeys_nodup g hnd
    have hentry_vals : ∀ e ∈ g.reverse.m, e.2 = g.m.flatMap
        (fun kv => (kv.2.filter (fun v => v.key == e.1.key)).map
          (fun v => kv.1.as_parent_of (some v))) := by
      intro e he
      have h1 := mm_entry_get ReqPackage.key hnd_rev e he
      rw [← h1]
      show mmGet ReqPackage.key
        (g.m.foldl (revStep ((g.m.flatMap Prod.snd).map (fun r => r.key))) [])
        (ReqPackage.key e.1) = _
      rw [revFold_get, mmGet_nil, List.nil_append]
    have hnd2 : (mmKeys DistPackage.key (g.reverse.m.foldl
        (revRevStepPure ((g.reverse.m.flatMap Prod.snd).map (fun d => d.key)))
        [])).Nodup := by
      apply revRevFold_keys_nodup
      · simp [mmKeys]
      · intro K' hK'
        simp [mmKeys] at hK'
      · intro kv hkv v hv
        rw [as_parent_of_key]
        exact List.mem_map_of_mem _ (List.mem_flatMap.mpr ⟨kv, hkv, hv⟩)
      · exact hnd_rev
      · exact hdist
    show k ∈ childKeysOf ⟨g.reverse.m.foldl
      (revRevStepPure ((g.reverse.m.flatMap Prod.snd).map (fun d => d.key))) []⟩ K
      ↔ k ∈ childKeysOf g K
    rw [childKeysOf_eq_mmGet _ hnd2 K, revRevFold_get, mmGet_nil, List.nil_append,
      childKeysOf_mem g K k]
    constructor
    · intro h
      obtain ⟨q, hq, rfl⟩ := List.mem_map.mp h
      obtain ⟨e, he, hq2⟩ := List.mem_flatMap.mp hq
      obtain ⟨v, hvf, hq3⟩ := List.mem_map.mp hq2
      rw [List.mem_filter] at hvf
      have hvK : v.key = K := by
        have h2 := beq_iff_eq.mp hvf.2
        rw [as_parent_of_key] at h2
        exact h2
      have hv0 := hvf.1
      rw [hentry_vals e he] at hv0
      obtain ⟨kv, hkv, hv2⟩ := List.mem_flatMap.mp hv0
      obtain ⟨r, hrf, hreq⟩ := List.mem_map.mp hv2
      rw [List.mem_filter] at hrf
      have hkK : kv.1.key = K := by
        rw [← hreq] at hvK
        rw [as_parent_of_key] at hvK
        exact hvK
      refine ⟨kv, hkv, hkK, r, hrf.1, ?_⟩
      rw [← hq3]
      exact beq_iff_eq.mp hrf.2
    · rintro ⟨kv, hkv, hkK, r, hr, hrk⟩
      have hvmem : kv.1.as_parent_of (some r) ∈ g.reverse.m.flatMap Prod.snd := by
        rw [hvals_rev]
        exact List.mem_flatMap.mpr ⟨kv, hkv, List.mem_map_of_mem _ hr⟩
      obtain ⟨e, he, hve0⟩ := List.mem_flatMap.mp hvmem
      have hve1 := hve0
      rw [hentry_vals e he] at hve1
      obtain ⟨kv', hkv', hve2⟩ := List.mem_flatMap.mp hve1
      obtain ⟨r', hr'f, hr'eq⟩ := List.mem_map.mp hve2
      rw [List.mem_filter] at hr'f
      have hrr : r' = r := by
        rw [as_parent_of_some, as_parent_of_some] at hr'eq
        injection hr'eq with h1 h2
        exact Option.some.inj h2
      have heK : e.1.key = r.key := by
        rw [← hrr]
        exact (beq_iff_eq.mp hr'f.2).symm
      apply List.mem_map.mpr
      refine ⟨e.1, ?_, by rw [heK, hrk]⟩
      apply List.mem_flatMap.mpr
      refine ⟨e, he, ?_⟩
      apply List.mem_map.mpr
      refine ⟨kv.1.as_parent_of (some r), ?_, rfl⟩
      rw [List.mem_filter]
      refine ⟨hve0, ?_⟩
      rw [beq_iff_eq, as_parent_of_key, as_parent_of_key]
      exact hkK

/-- C1 counterexample: on the graph whose single package `A` declares an
unresolved requirement `B` (no installed `B`, `dist = None`), the second
reversal hits the `None`-`dist` promotion path and crashes: the round trip
produces no graph at all, refuting the unconditional claim. -/
theorem reverse_roundtrip_counterexample :
    missingDAG.reverse.reverse = none := by decide

theorem reverse_roundtrip_witness :
    GraphWF sampleDAG ∧
      ∃ g₂ : PackageDAG, sampleDAG.reverse.reverse = some g₂ ∧
        (∀ K, K ∈ g₂.rootKeys ↔ K ∈ sampleDAG.rootKeys) ∧
        (∀ K k, k ∈ childKeysOf g₂ K ↔ k ∈ childKeysOf sampleDAG K) :=
  ⟨by unfold GraphWF; decide, reverse_roundtrip sampleDAG (by unfold GraphWF; decide)⟩
